import Mathlib

/-! Escape-time fractals: evaluator, palette, frame and landscape.

A shallow embedding of the numeric core of `juliaAN.js`, `mandelbrotHN.js` and
`mandelbrot3D_EN.js`.  JavaScript / GLSL numbers are modelled by exact rationals
(`ℚ`), iteration counts and palette indices by `ℕ`; the value of the continuous
escape formula, which uses `Math.sqrt`, `Math.log` and `Math.log2`, lives in `ℝ`.
-/

namespace Grafika

/-! ## Discrete evaluator (fragment shader `mandelbrot` / `julia`) -/

/-- Outcome of the per-pixel routine: `Escaped i` is the `return vec4(colors[i], 1.0)`
inside the loop, `Bounded` the `return vec4(colors[limit], 1.0)` after it. -/
inductive EscapeResult where
  | Escaped (index : ℕ)
  | Bounded
  deriving DecidableEq, Repr

/-- The `for (int i = 0; i < limit; i++)` loop of the shader routines.
`n` is the number of iterations still to run (`limit - i`), `(zr, zi)` the
current value of the iterated variable. -/
def shaderLoop (cr ci : ℚ) : ℕ → ℕ → ℚ → ℚ → EscapeResult
  | 0, _, _, _ => EscapeResult.Bounded
  | n + 1, i, zr, zi =>
    let zr2 := zr * zr
    let zi2 := zi * zi
    let zi' := 2 * zr * zi + ci
    let zr' := zr2 - zi2 + cr
    if zr2 + zi2 > 4 then EscapeResult.Escaped i
    else shaderLoop cr ci n (i + 1) zr' zi'

/-- Shader routine `mandelbrot(vec2 c)` generated for a given `limit`:
`cr = c.x`, `ci = c.y`, `zr = zi = 0.0`. -/
def mandelbrot (c : ℚ × ℚ) (limit : ℕ) : EscapeResult :=
  shaderLoop c.1 c.2 limit 0 0 0

/-- Shader routine `julia(vec2 c)` generated for constants `cr`, `ci` and a
given `limit`: `zr = c.x`, `zi = c.y`. -/
def julia (cr ci : ℚ) (c : ℚ × ℚ) (limit : ℕ) : EscapeResult :=
  shaderLoop cr ci limit 0 c.1 c.2

/-- Index of the palette entry the shader returns (`colors[i]` or `colors[limit]`). -/
def paletteIndex (limit : ℕ) : EscapeResult → ℕ
  | EscapeResult.Escaped i => i
  | EscapeResult.Bounded => limit

/-! ## Reference orbit (from the specification's wording) -/

/-- Reference recurrence of the specification: one step `z ← z² + c`
(`re' = re² − im² + cRe`, `im' = 2·re·im + cIm`). -/
def specStep (cr ci : ℚ) (z : ℚ × ℚ) : ℚ × ℚ :=
  (z.1 * z.1 - z.2 * z.2 + cr, 2 * z.1 * z.2 + ci)

/-- Reference orbit of the specification: the value of `z` after `k` updates,
starting from `z0`. -/
def specOrbit (cr ci : ℚ) (z0 : ℚ × ℚ) : ℕ → ℚ × ℚ
  | 0 => z0
  | k + 1 => specStep cr ci (specOrbit cr ci z0 k)

/-- Squared modulus `|z|²` of a point. -/
def normSq2 (z : ℚ × ℚ) : ℚ := z.1 * z.1 + z.2 * z.2

/-! ## Continuous escape value (`mandelbrotFrac`, mandelbrot3D_EN.js) -/

/-- Constant `let R = 16`. -/
def R : ℚ := 16

/-- Constant `let R2 = R * R`. -/
def R2 : ℚ := R * R

/-- Constant `let Rp = Math.log2(Math.log(R))`.  `Math.log` is `Real.log` and
`Math.log2` is `Real.logb 2`; they agree with JavaScript on positive arguments. -/
noncomputable def Rp : ℝ := Real.logb 2 (Real.log (R : ℝ))

/-- The variables `i, zr, zi, zr2, zi2` of `mandelbrotFrac`.  `zr2` and `zi2`
are declared without a value in the source; they hold `0` here until the first
iteration assigns them, and are read only after an iteration has run. -/
structure FracState where
  i : ℕ
  zr : ℚ
  zi : ℚ
  zr2 : ℚ
  zi2 : ℚ
  deriving DecidableEq, Repr

/-- The loop `for (i = 0; i < limit; i++) { ...; if (zr2 + zi2 > R2) break; }`.
`n` is the number of iterations still to run (`limit - i`).  On `break` the
counter is not incremented; when the loop runs to completion `i = limit`. -/
def fracLoop (cr ci : ℚ) : ℕ → FracState → FracState
  | 0, s => s
  | n + 1, s =>
    let zr2 := s.zr * s.zr
    let zi2 := s.zi * s.zi
    let zi' := 2 * s.zr * s.zi + ci
    let zr' := zr2 - zi2 + cr
    if zr2 + zi2 > R2 then
      { i := s.i, zr := zr', zi := zi', zr2 := zr2, zi2 := zi2 }
    else
      fracLoop cr ci n { i := s.i + 1, zr := zr', zi := zi', zr2 := zr2, zi2 := zi2 }

/-- State of `mandelbrotFrac(cr, ci, limit)` when its loop is left. -/
def fracExit (cr ci : ℚ) (limit : ℕ) : FracState :=
  fracLoop cr ci limit { i := 0, zr := 0, zi := 0, zr2 := 0, zi2 := 0 }

/-- The test `i < limit` after the loop: `mandelbrotFrac` takes its escape branch. -/
def fracEscapes (cr ci : ℚ) (limit : ℕ) : Prop :=
  (fracExit cr ci limit).i < limit

instance (cr ci : ℚ) (limit : ℕ) : Decidable (fracEscapes cr ci limit) := by
  unfold fracEscapes; infer_instance

/-- The value `modulus = Math.sqrt(zr2 + zi2)` of the escape branch. -/
noncomputable def fracModulus (cr ci : ℚ) (limit : ℕ) : ℝ :=
  Real.sqrt (((fracExit cr ci limit).zr2 + (fracExit cr ci limit).zi2 : ℚ) : ℝ)

/-- Function `mandelbrotFrac(cr, ci, limit)`. -/
noncomputable def mandelbrotFrac (cr ci : ℚ) (limit : ℕ) : ℝ :=
  if (fracExit cr ci limit).i < limit then
    ((fracExit cr ci limit).i : ℝ) + Rp - Real.logb 2 (Real.log (fracModulus cr ci limit))
  else
    (limit : ℝ)

/-! ## Palette (`updateColors`) -/

/-- An RGB colour (`THREE.Color`). -/
structure Color where
  r : ℚ
  g : ℚ
  b : ℚ
  deriving DecidableEq, Repr

/-- Method `Color.lerp(color, alpha)` of three.js: each channel moves from its
value towards that of `color` by the fraction `alpha`. -/
def Color.lerp (c color : Color) (alpha : ℚ) : Color :=
  { r := c.r + (color.r - c.r) * alpha
    g := c.g + (color.g - c.g) * alpha
    b := c.b + (color.b - c.b) * alpha }

/-- The values of `controls.colorModel`. -/
inductive ColorModel where
  | rainbow
  | binary
  | gradient
  deriving DecidableEq, Repr

/-- The gradient loop `for (let i = 0, f = 0.0; i <= levels; i++, f += inc)`:
`n` entries are still to be pushed, `f` is the running factor. -/
def gradientLoop (color1 color2 : Color) (inc : ℚ) : ℕ → ℚ → List Color
  | 0, _ => []
  | n + 1, f => color1.lerp color2 (f * f) :: gradientLoop color1 color2 inc n (f + inc)

/-- Function `updateColors()` of juliaAN.js and mandelbrotHN.js, with
`controls.levels`, `controls.colorModel`, `controls.color1`, `controls.color2`
as arguments.  `setHSL h s l` is the colour three.js builds from hue,
saturation and lightness. -/
def updateColors (setHSL : ℚ → ℚ → ℚ → Color) (levels : ℕ) (colorModel : ColorModel)
    (color1 color2 : Color) : List Color :=
  match colorModel with
  | ColorModel.rainbow =>
    (List.range (levels + 1)).map fun i : ℕ => setHSL ((i : ℚ) / (levels : ℚ)) 1 (1 / 2)
  | ColorModel.binary =>
    let p : Color × Color := if levels % 2 = 0 then (color2, color1) else (color1, color2)
    (List.range (levels + 1)).map fun i : ℕ => if i % 2 = 0 then p.1 else p.2
  | ColorModel.gradient =>
    gradientLoop color1 color2 (1 / (levels : ℚ)) (levels + 1) 0

namespace Mandelbrot3D

/-- Function `updateColors()` of mandelbrot3D_EN.js: the same palette followed by
`colors.push(colors[levels])`. -/
def updateColors (setHSL : ℚ → ℚ → ℚ → Color) (levels : ℕ) (colorModel : ColorModel)
    (color1 color2 : Color) : List Color :=
  let colors := Grafika.updateColors setHSL levels colorModel color1 color2
  colors ++ (colors[levels]?).toList

end Mandelbrot3D

/-! ## Frame and zoom (`recomputeFrame`) -/

/-- The global `frame = [minr, mini, width, height]`. -/
structure Frame where
  minr : ℚ
  mini : ℚ
  width : ℚ
  height : ℚ
  deriving DecidableEq, Repr

/-- The values of `controls.zoom` (the strings 'in' and 'out'). -/
inductive Zoom where
  | zoomIn
  | zoomOut
  deriving DecidableEq, Repr

/-- The state `recomputeFrame` reads and writes: the global `frame`,
`frameSquare.position.x / .y`, `controls.frame` and `controls.zoom`. -/
structure View where
  frame : Frame
  posx : ℚ
  posy : ℚ
  frameSel : ℕ
  zoom : Zoom
  deriving DecidableEq, Repr

/-- Function `recomputeFrame()` (juliaAN.js and mandelbrot3D_EN.js). -/
def recomputeFrame (v : View) : View :=
  if v.frameSel = 1 then v
  else
    let scale : ℚ := if v.zoom = Zoom.zoomIn then 1 / (v.frameSel : ℚ) else (v.frameSel : ℚ)
    let newWidth := v.frame.width * scale
    let newHeight := v.frame.height * scale
    let framePosr := v.frame.minr + ((v.posx + 1) / 2) * v.frame.width
    let framePosi := v.frame.mini + ((v.posy + 1) / 2) * v.frame.height
    let newMinr := framePosr - (1 / 2) * newWidth
    let newMini := framePosi - (1 / 2) * newHeight
    { v with
      frame := { minr := newMinr, mini := newMini, width := newWidth, height := newHeight }
      posx := 0
      posy := 0 }

/-! ## Landscape (`mandelbrotLandscapeGeom`, `invertMandelbrotLandscape`) -/

/-- Constant `let heightOf3DLandscape = 1.0`. -/
def heightOf3DLandscape : ℚ := 1

/-- JavaScript `Math.trunc`: the integer part, rounding towards zero. -/
noncomputable def mathTrunc (x : ℝ) : ℤ := if 0 ≤ x then ⌊x⌋ else ⌈x⌉

/-- Plane point of grid cell `(i, j)`: `posr = width * (i / res1) + minr`,
`posi = height * (j / res1) + mini` with `res1 = res + 1`. -/
def gridPoint (frame : Frame) (res i j : ℕ) : ℚ × ℚ :=
  (frame.width * ((i : ℚ) / ((res + 1 : ℕ) : ℚ)) + frame.minr,
   frame.height * ((j : ℚ) / ((res + 1 : ℕ) : ℚ)) + frame.mini)

/-- What `mandelbrotLandscapeGeom` computes for one grid cell: the height written
to `pa[base + 2]` and the two palette indices `zs`, `zs + 1` it reads. -/
structure LandscapeCell where
  height : ℝ
  zs : ℤ
  zs1 : ℤ
  zf : ℝ

/-- Body of the double loop of `mandelbrotLandscapeGeom(frame, size, res, colors, limit)`
at grid cell `(i, j)`. -/
noncomputable def mandelbrotLandscapeGeom (frame : Frame) (res limit i j : ℕ) :
    LandscapeCell :=
  let z := mandelbrotFrac (gridPoint frame res i j).1 (gridPoint frame res i j).2 limit
  let zs := mathTrunc z
  { height := -(z / (limit : ℝ)) * (heightOf3DLandscape : ℝ)
    zs := zs
    zs1 := zs + 1
    zf := z - (zs : ℝ) }

/-- The loop `for (let i = 2; i < pa.length; i += 3) pa[i] = -(1 + pa[i])`,
entered with counter `i`. -/
def invertLoop {α : Type} [Add α] [Neg α] [One α] (i : ℕ) (pa : List α) : List α :=
  if h : i < pa.length then invertLoop (i + 3) (pa.set i (-(1 + pa[i])))
  else pa
termination_by pa.length - i
decreasing_by simp only [List.length_set]; omega

/-- Function `invertMandelbrotLandscape()` acting on the position array `pa`. -/
def invertMandelbrotLandscape {α : Type} [Add α] [Neg α] [One α] (pa : List α) : List α :=
  invertLoop 2 pa

/-! ## Initial values and composed runs -/

namespace JuliaAN

/-- Initial value `let frame = [-1.5, -1.5, 3.01, 3.01]` of juliaAN.js. -/
def frame : Frame := { minr := -3 / 2, mini := -3 / 2, width := 301 / 100, height := 301 / 100 }

end JuliaAN

namespace Mandelbrot3D

/-- Initial value `let frame = [-2.1, -1.5, 3.1, 3.001]` of mandelbrot3D_EN.js. -/
def frame : Frame :=
  { minr := -21 / 10, mini := -3 / 2, width := 31 / 10, height := 3001 / 1000 }

/-- Initial value `let resolution = 300`. -/
def resolution : ℕ := 300

end Mandelbrot3D

/-- Two presses of `Go` with the same selector `f`: the first with
`controls.zoom = 'in'` and the marker at `(px, py)`, the second with
`controls.zoom = 'out'` and the marker where the first call left it. -/
def zoomInThenOut (fr : Frame) (f : ℕ) (px py : ℚ) : View :=
  recomputeFrame
    { recomputeFrame { frame := fr, posx := px, posy := py, frameSel := f, zoom := Zoom.zoomIn }
      with zoom := Zoom.zoomOut }

/-! ## Shader entry point and selection marker -/

/-- The uv-to-plane mapping of the fragment shader's `main()`:
`posr = width * vUv.x + minr`, `posi = height * vUv.y + mini`. -/
def shaderPos (frame : Frame) (vUv : ℚ × ℚ) : ℚ × ℚ :=
  (frame.width * vUv.1 + frame.minr, frame.height * vUv.2 + frame.mini)

namespace JuliaAN

/-- Fragment shader `main()` of juliaAN.js generated for `frame`, `cr`, `ci`, `limit`:
`gl_FragColor = julia(pos)`. -/
def main (frame : Frame) (cr ci : ℚ) (limit : ℕ) (vUv : ℚ × ℚ) : EscapeResult :=
  julia cr ci (shaderPos frame vUv) limit

end JuliaAN

/-- The mesh `frameSquare`: its uniform x/y scale and its position.  Its geometry
is `PlaneGeometry(2, 2)`, whose local x and y range over `[-1, 1]`. -/
structure FrameSquare where
  scale : ℚ
  posx : ℚ
  posy : ℚ
  deriving DecidableEq, Repr

/-- Function `makeFrameSquare(r)`: `square.scale.set(r, r, 1)`, position at the
origin of the x/y plane. -/
def makeFrameSquare (r : ℚ) : FrameSquare := { scale := r, posx := 0, posy := 0 }

/-- Function `updateFrame()` as far as the marker is concerned: when
`controls.frame > 1` the square is given the scale `1.0 / frameval`. -/
def updateFrame (frameval : ℕ) (sq : FrameSquare) : FrameSquare :=
  if frameval > 1 then { sq with scale := 1 / (frameval : ℚ) } else sq

/-- Lower-left corner of the square in scene coordinates: the local vertex
`(-1, -1)` scaled and translated. -/
def FrameSquare.lo (sq : FrameSquare) : ℚ × ℚ :=
  (sq.posx + sq.scale * (-1), sq.posy + sq.scale * (-1))

/-- Upper-right corner of the square in scene coordinates: the local vertex
`(1, 1)` scaled and translated. -/
def FrameSquare.hi (sq : FrameSquare) : ℚ × ℚ :=
  (sq.posx + sq.scale * 1, sq.posy + sq.scale * 1)

/-- The expressions `framePosr`, `framePosi` of `recomputeFrame`: the plane point
of a scene position in `[-1, 1]²`. -/
def framePos (frame : Frame) (p : ℚ × ℚ) : ℚ × ℚ :=
  (frame.minr + ((p.1 + 1) / 2) * frame.width, frame.mini + ((p.2 + 1) / 2) * frame.height)

/-- The marker as `updateFrame` leaves it for selector `f`, dragged to `(px, py)`. -/
def markerAt (f : ℕ) (px py : ℚ) : FrameSquare :=
  { updateFrame f (makeFrameSquare 1) with posx := px, posy := py }

/-- The frame after one press of `Go` with `controls.zoom = 'in'`, selector `f` and
the marker at `(px, py)`. -/
def zoomInFrame (fr : Frame) (f : ℕ) (px py : ℚ) : Frame :=
  (recomputeFrame
    { frame := fr, posx := px, posy := py, frameSel := f, zoom := Zoom.zoomIn }).frame

/-! ## Lemmas on the discrete evaluator -/

theorem specOrbit_shift (cr ci : ℚ) (z0 : ℚ × ℚ) (k : ℕ) :
    specOrbit cr ci z0 (k + 1) = specOrbit cr ci (specStep cr ci z0) k := by
  induction k with
  | zero => rfl
  | succ k ih => simp only [specOrbit] at ih ⊢; rw [ih]

theorem shaderLoop_step (cr ci : ℚ) (n i : ℕ) (zr zi : ℚ) :
    shaderLoop cr ci (n + 1) i zr zi =
      if 4 < normSq2 (zr, zi) then EscapeResult.Escaped i
      else shaderLoop cr ci n (i + 1) (specStep cr ci (zr, zi)).1 (specStep cr ci (zr, zi)).2 := by
  simp only [shaderLoop, normSq2, specStep, gt_iff_lt]

/-- The loop returns `Escaped (i + k)` at the first `k` whose iterate fails the radius test. -/
theorem shaderLoop_escaped (cr ci : ℚ) :
    ∀ (n i : ℕ) (z : ℚ × ℚ) (k : ℕ), k < n →
      4 < normSq2 (specOrbit cr ci z k) →
      (∀ j, j < k → ¬ 4 < normSq2 (specOrbit cr ci z j)) →
      shaderLoop cr ci n i z.1 z.2 = EscapeResult.Escaped (i + k) := by
  intro n
  induction n with
  | zero => intro i z k hk; omega
  | succ n ih =>
    intro i z k hk hesc hmin
    rw [shaderLoop_step]
    cases k with
    | zero =>
      have h0 : 4 < normSq2 (z.1, z.2) := by simpa [specOrbit] using hesc
      simp [h0]
    | succ k =>
      have h0 : ¬ 4 < normSq2 (z.1, z.2) := by
        simpa [specOrbit] using hmin 0 (Nat.succ_pos k)
      rw [if_neg h0]
      have := ih (i + 1) (specStep cr ci (z.1, z.2)) k (by omega)
        (by rw [← specOrbit_shift]; exact hesc)
        (fun j hj => by rw [← specOrbit_shift]; exact hmin (j + 1) (by omega))
      rw [this]
      congr 1
      omega

/-- The loop returns `Bounded` when no tested iterate fails the radius test. -/
theorem shaderLoop_bounded (cr ci : ℚ) :
    ∀ (n i : ℕ) (z : ℚ × ℚ),
      (∀ k, k < n → ¬ 4 < normSq2 (specOrbit cr ci z k)) →
      shaderLoop cr ci n i z.1 z.2 = EscapeResult.Bounded := by
  intro n
  induction n with
  | zero => intro i z _; rfl
  | succ n ih =>
    intro i z h
    rw [shaderLoop_step]
    have h0 : ¬ 4 < normSq2 (z.1, z.2) := by
      simpa [specOrbit] using h 0 (Nat.succ_pos n)
    rw [if_neg h0]
    exact ih (i + 1) (specStep cr ci (z.1, z.2))
      (fun k hk => by rw [← specOrbit_shift]; exact h (k + 1) (by omega))

theorem mandelbrot_two_two (limit : ℕ) (h : 2 ≤ limit) :
    mandelbrot (2, 2) limit = EscapeResult.Escaped 1 := by
  have := shaderLoop_escaped 2 2 limit 0 (0, 0) 1 (by omega)
    (by norm_num [specOrbit, specStep, normSq2])
    (fun j hj => by
      have : j = 0 := by omega
      subst this
      norm_num [specOrbit, normSq2])
  simpa [mandelbrot] using this

/-! ## Lemmas on the continuous evaluator -/

theorem fracLoop_step (cr ci : ℚ) (n : ℕ) (s : FracState) :
    fracLoop cr ci (n + 1) s =
      if 256 < normSq2 (s.zr, s.zi) then
        { i := s.i, zr := (specStep cr ci (s.zr, s.zi)).1, zi := (specStep cr ci (s.zr, s.zi)).2,
          zr2 := s.zr * s.zr, zi2 := s.zi * s.zi }
      else
        fracLoop cr ci n
          { i := s.i + 1, zr := (specStep cr ci (s.zr, s.zi)).1,
            zi := (specStep cr ci (s.zr, s.zi)).2, zr2 := s.zr * s.zr, zi2 := s.zi * s.zi } := by
  have hR : R2 = 256 := by norm_num [R2, R]
  simp only [fracLoop, normSq2, specStep, gt_iff_lt, hR]

/-- The loop breaks at the first `k` whose iterate fails the radius test, leaving
`i = s.i + k` and the squares of that iterate in `zr2`, `zi2`. -/
theorem fracLoop_break (cr ci : ℚ) :
    ∀ (n : ℕ) (s : FracState) (k : ℕ), k < n →
      256 < normSq2 (specOrbit cr ci (s.zr, s.zi) k) →
      (∀ j, j < k → ¬ 256 < normSq2 (specOrbit cr ci (s.zr, s.zi) j)) →
      (fracLoop cr ci n s).i = s.i + k ∧
        (fracLoop cr ci n s).zr2 + (fracLoop cr ci n s).zi2 =
          normSq2 (specOrbit cr ci (s.zr, s.zi) k) := by
  intro n
  induction n with
  | zero => intro s k hk; omega
  | succ n ih =>
    intro s k hk hesc hmin
    rw [fracLoop_step]
    cases k with
    | zero =>
      have h0 : 256 < normSq2 (s.zr, s.zi) := by simpa [specOrbit] using hesc
      rw [if_pos h0]
      simp [specOrbit, normSq2]
    | succ k =>
      have h0 : ¬ 256 < normSq2 (s.zr, s.zi) := by
        simpa [specOrbit] using hmin 0 (Nat.succ_pos k)
      rw [if_neg h0]
      have := ih
        { i := s.i + 1, zr := (specStep cr ci (s.zr, s.zi)).1,
          zi := (specStep cr ci (s.zr, s.zi)).2, zr2 := s.zr * s.zr, zi2 := s.zi * s.zi }
        k (by omega)
        (by rw [← specOrbit_shift]; exact hesc)
        (fun j hj => by rw [← specOrbit_shift]; exact hmin (j + 1) (by omega))
      rw [specOrbit_shift]
      refine ⟨?_, this.2⟩
      rw [this.1]
      simp only
      omega

/-- The loop runs to completion, leaving `i = s.i + n`, when no tested iterate
fails the radius test. -/
theorem fracLoop_done (cr ci : ℚ) :
    ∀ (n : ℕ) (s : FracState),
      (∀ k, k < n → ¬ 256 < normSq2 (specOrbit cr ci (s.zr, s.zi) k)) →
      (fracLoop cr ci n s).i = s.i + n := by
  intro n
  induction n with
  | zero => intro s _; rfl
  | succ n ih =>
    intro s h
    rw [fracLoop_step]
    have h0 : ¬ 256 < normSq2 (s.zr, s.zi) := by
      simpa [specOrbit] using h 0 (Nat.succ_pos n)
    rw [if_neg h0]
    have := ih
      { i := s.i + 1, zr := (specStep cr ci (s.zr, s.zi)).1,
        zi := (specStep cr ci (s.zr, s.zi)).2, zr2 := s.zr * s.zr, zi2 := s.zi * s.zi }
      (fun k hk => by rw [← specOrbit_shift]; exact h (k + 1) (by omega))
    rw [this]
    simp only
    omega

/-- How `mandelbrotFrac` leaves its loop: either by `break` at the least index `k`
whose iterate has `|z_k|² > 256`, or by exhausting the `limit` iterations. -/
theorem fracExit_cases (cr ci : ℚ) (limit : ℕ) :
    (∃ k, k < limit ∧ 256 < normSq2 (specOrbit cr ci (0, 0) k) ∧
        (∀ j, j < k → ¬ 256 < normSq2 (specOrbit cr ci (0, 0) j)) ∧
        (fracExit cr ci limit).i = k ∧
        (fracExit cr ci limit).zr2 + (fracExit cr ci limit).zi2 =
          normSq2 (specOrbit cr ci (0, 0) k)) ∨
    ((∀ k, k < limit → ¬ 256 < normSq2 (specOrbit cr ci (0, 0) k)) ∧
        (fracExit cr ci limit).i = limit) := by
  by_cases h : ∃ k, k < limit ∧ 256 < normSq2 (specOrbit cr ci (0, 0) k)
  · left
    classical
    refine ⟨Nat.find h, (Nat.find_spec h).1, (Nat.find_spec h).2, ?_, ?_⟩
    · intro j hj hlt
      exact Nat.find_min h hj ⟨lt_trans hj (Nat.find_spec h).1, hlt⟩
    · have := fracLoop_break cr ci limit { i := 0, zr := 0, zi := 0, zr2 := 0, zi2 := 0 }
        (Nat.find h) (Nat.find_spec h).1 (Nat.find_spec h).2
        (fun j hj hlt => Nat.find_min h hj ⟨lt_trans hj (Nat.find_spec h).1, hlt⟩)
      simpa [fracExit] using this
  · right
    have hno : ∀ k, k < limit → ¬ 256 < normSq2 (specOrbit cr ci (0, 0) k) :=
      fun k hk hlt => h ⟨k, hk, hlt⟩
    refine ⟨hno, ?_⟩
    have := fracLoop_done cr ci limit { i := 0, zr := 0, zi := 0, zr2 := 0, zi2 := 0 } hno
    simpa [fracExit] using this

/-- In the escape branch the loop index is at least 1 and `zr2 + zi2 > 256`. -/
theorem fracExit_escape (cr ci : ℚ) (limit : ℕ) (h : (fracExit cr ci limit).i < limit) :
    1 ≤ (fracExit cr ci limit).i ∧
      256 < (fracExit cr ci limit).zr2 + (fracExit cr ci limit).zi2 ∧
      256 < normSq2 (specOrbit cr ci (0, 0) (fracExit cr ci limit).i) := by
  rcases fracExit_cases cr ci limit with ⟨k, _, hesc, _, hi, hsq⟩ | ⟨_, hi⟩
  · refine ⟨?_, ?_, ?_⟩
    · rw [hi]
      rcases Nat.eq_zero_or_pos k with h0 | h0
      · subst h0
        norm_num [specOrbit, normSq2] at hesc
      · exact h0
    · rw [hsq]; exact hesc
    · rw [hi]; exact hesc
  · omega

/-! ## The smoothing term over the reals -/

theorem log_sixteen_pos : 0 < Real.log 16 := Real.log_pos (by norm_num)

theorem log_256_eq : Real.log 256 = 2 * Real.log 16 := by
  have h : (256 : ℝ) = 16 ^ 2 := by norm_num
  rw [h, Real.log_pow]
  norm_num

theorem rpow_two_pow (e : ℕ) :
    (256 : ℝ) ^ (((2 : ℝ) ^ e : ℝ)) = (256 : ℝ) ^ ((2 ^ e : ℕ)) := by
  rw [← Real.rpow_natCast 256 (2 ^ e)]
  push_cast
  rfl

/-- The smoothing term in closed form: with `q = zr2 + zi2 > 256`,
`i + Rp - log2(log(sqrt q)) = i - log2(log_256 q)`. -/
theorem smoothing_eq (i : ℝ) (q : ℝ) (hq : 256 < q) :
    i + Rp - Real.logb 2 (Real.log (Real.sqrt q)) = i - Real.logb 2 (Real.logb 256 q) := by
  have hq0 : (0 : ℝ) ≤ q := by linarith
  have hlogq : 0 < Real.log q := Real.log_pos (by linarith)
  have h16 := log_sixteen_pos
  have hR : ((R : ℚ) : ℝ) = 16 := by norm_num [R]
  have e1 : Real.logb 256 q = (Real.log q / 2) / Real.log 16 := by
    rw [Real.logb, log_256_eq]
    field_simp
  rw [Real.log_sqrt hq0, e1, Real.logb_div (by positivity) (ne_of_gt h16), Rp, hR]
  ring

/-- The smoothing term is below `i - e` once `zr2 + zi2 ≥ 256 ^ (2 ^ e)`. -/
theorem smoothing_le (i : ℝ) (e : ℕ) (q : ℝ) (hq : 256 < q) (hbig : (256 : ℝ) ^ ((2 ^ e : ℕ)) ≤ q) :
    i + Rp - Real.logb 2 (Real.log (Real.sqrt q)) ≤ i - e := by
  rw [smoothing_eq i q hq]
  have h1 : ((2 : ℝ) ^ e) ≤ Real.logb 256 q := by
    rw [Real.le_logb_iff_rpow_le (by norm_num) (by linarith)]
    rw [rpow_two_pow]
    exact hbig
  have h2 : (e : ℝ) ≤ Real.logb 2 (Real.logb 256 q) := by
    rw [Real.le_logb_iff_rpow_le (by norm_num) (lt_of_lt_of_le (by positivity) h1)]
    rw [Real.rpow_natCast]
    exact h1
  linarith

/-- The smoothing term is at least `i - e` while `zr2 + zi2 ≤ 256 ^ (2 ^ e)`. -/
theorem smoothing_ge (i : ℝ) (e : ℕ) (q : ℝ) (hq : 256 < q) (hsmall : q ≤ (256 : ℝ) ^ ((2 ^ e : ℕ))) :
    i - e ≤ i + Rp - Real.logb 2 (Real.log (Real.sqrt q)) := by
  rw [smoothing_eq i q hq]
  have hpos : 0 < Real.logb 256 q := by
    rw [Real.logb]
    exact div_pos (Real.log_pos (by linarith)) (Real.log_pos (by norm_num))
  have h1 : Real.logb 256 q ≤ ((2 : ℝ) ^ e) := by
    rw [Real.logb_le_iff_le_rpow (by norm_num) (by linarith)]
    rw [rpow_two_pow]
    exact hsmall
  have h2 : Real.logb 2 (Real.logb 256 q) ≤ (e : ℝ) := by
    rw [Real.logb_le_iff_le_rpow (by norm_num) hpos, Real.rpow_natCast]
    exact h1
  linarith

/-- The smoothing term is strictly below `i` for every `zr2 + zi2 > 256`. -/
theorem smoothing_lt (i : ℝ) (q : ℝ) (hq : 256 < q) :
    i + Rp - Real.logb 2 (Real.log (Real.sqrt q)) < i := by
  rw [smoothing_eq i q hq]
  have h1 : 1 < Real.logb 256 q := by
    rw [Real.lt_logb_iff_rpow_lt (by norm_num) (by linarith)]
    simpa using hq
  have h2 : 0 < Real.logb 2 (Real.logb 256 q) := Real.logb_pos (by norm_num) h1
  linarith

/-- Modulus of the escape branch: `modulus > 16`, hence `log(modulus) > 0`. -/
theorem fracModulus_gt (cr ci : ℚ) (limit : ℕ) (h : (fracExit cr ci limit).i < limit) :
    16 < fracModulus cr ci limit ∧ 0 < Real.log (fracModulus cr ci limit) := by
  have hq := (fracExit_escape cr ci limit h).2.1
  have hq' : (256 : ℝ) < (((fracExit cr ci limit).zr2 + (fracExit cr ci limit).zi2 : ℚ) : ℝ) := by
    exact_mod_cast hq
  have h16 : 16 < fracModulus cr ci limit := by
    rw [fracModulus, Real.lt_sqrt (by norm_num)]
    norm_num
    exact_mod_cast hq
  exact ⟨h16, Real.log_pos (by linarith)⟩

/-- Value of the escape branch of `mandelbrotFrac`. -/
theorem mandelbrotFrac_escape (cr ci : ℚ) (limit : ℕ) (h : (fracExit cr ci limit).i < limit) :
    mandelbrotFrac cr ci limit =
      ((fracExit cr ci limit).i : ℝ) + Rp -
        Real.logb 2 (Real.log (Real.sqrt
          (((fracExit cr ci limit).zr2 + (fracExit cr ci limit).zi2 : ℚ) : ℝ))) := by
  rw [mandelbrotFrac, if_pos h, fracModulus]

/-- Value of the bounded branch of `mandelbrotFrac`. -/
theorem mandelbrotFrac_bounded (cr ci : ℚ) (limit : ℕ) (h : ¬ (fracExit cr ci limit).i < limit) :
    mandelbrotFrac cr ci limit = (limit : ℝ) := by
  rw [mandelbrotFrac, if_neg h]

/-- An escaped value is strictly below its loop index. -/
theorem mandelbrotFrac_lt_index (cr ci : ℚ) (limit : ℕ) (h : (fracExit cr ci limit).i < limit) :
    mandelbrotFrac cr ci limit < ((fracExit cr ci limit).i : ℝ) := by
  rw [mandelbrotFrac_escape cr ci limit h]
  apply smoothing_lt
  exact_mod_cast (fracExit_escape cr ci limit h).2.1

/-! ## Concrete runs used below -/

theorem fracExit_two_two :
    fracExit 2 2 8 = { i := 3, zr := 7074, zi := -7894, zr2 := 8836, zi2 := 1764 } := by
  norm_num [fracExit, fracLoop_step, specStep, normSq2]

theorem mandelbrot_two_two_eight : mandelbrot (2, 2) 8 = EscapeResult.Escaped 1 :=
  mandelbrot_two_two 8 (by norm_num)

/-- How the shader loop returns: at the least tested index whose iterate has
`|z|² > 4`, or `Bounded` when there is none. -/
theorem shaderLoop_cases (cr ci : ℚ) (n i : ℕ) (z : ℚ × ℚ) :
    (∃ k, k < n ∧ 4 < normSq2 (specOrbit cr ci z k) ∧
        (∀ j, j < k → ¬ 4 < normSq2 (specOrbit cr ci z j)) ∧
        shaderLoop cr ci n i z.1 z.2 = EscapeResult.Escaped (i + k)) ∨
    ((∀ k, k < n → ¬ 4 < normSq2 (specOrbit cr ci z k)) ∧
        shaderLoop cr ci n i z.1 z.2 = EscapeResult.Bounded) := by
  by_cases h : ∃ k, k < n ∧ 4 < normSq2 (specOrbit cr ci z k)
  · left
    classical
    have hmin : ∀ j, j < Nat.find h → ¬ 4 < normSq2 (specOrbit cr ci z j) :=
      fun j hj hlt => Nat.find_min h hj ⟨lt_trans hj (Nat.find_spec h).1, hlt⟩
    exact ⟨Nat.find h, (Nat.find_spec h).1, (Nat.find_spec h).2, hmin,
      shaderLoop_escaped cr ci n i z (Nat.find h) (Nat.find_spec h).1 (Nat.find_spec h).2 hmin⟩
  · right
    have hno : ∀ k, k < n → ¬ 4 < normSq2 (specOrbit cr ci z k) :=
      fun k hk hlt => h ⟨k, hk, hlt⟩
    exact ⟨hno, shaderLoop_bounded cr ci n i z hno⟩

/-! ## Discrete evaluator: index of the escape -/

/-- C1 (as the code has it): the shader routines test the value of `z` held before
the update of the same iteration.  For every start point, constant and limit the
result is `Escaped k` for the least `k < limit` such that the value of `z` after
`k` updates has `|z|² > 4`, and `Bounded` when there is no such `k`; `mandelbrot`
is the same loop started at `z = 0`.  Mandelbrot at `c = (2, 2)` yields
`Escaped 1` for every limit at least 2 and `Bounded` for limit 1. -/
theorem discrete_evaluator_least_index :
    (∀ (cr ci : ℚ) (z0 : ℚ × ℚ) (limit k : ℕ), k < limit →
        4 < normSq2 (specOrbit cr ci z0 k) →
        (∀ j, j < k → ¬ 4 < normSq2 (specOrbit cr ci z0 j)) →
        julia cr ci z0 limit = EscapeResult.Escaped k) ∧
    (∀ (cr ci : ℚ) (z0 : ℚ × ℚ) (limit : ℕ),
        (∀ k, k < limit → ¬ 4 < normSq2 (specOrbit cr ci z0 k)) →
        julia cr ci z0 limit = EscapeResult.Bounded) ∧
    (∀ (c : ℚ × ℚ) (limit : ℕ), mandelbrot c limit = julia c.1 c.2 (0, 0) limit) ∧
    (∀ limit : ℕ, 2 ≤ limit → mandelbrot (2, 2) limit = EscapeResult.Escaped 1) ∧
    mandelbrot (2, 2) 1 = EscapeResult.Bounded := by
  refine ⟨?_, ?_, ?_, ?_, ?_⟩
  · intro cr ci z0 limit k hk hesc hmin
    have := shaderLoop_escaped cr ci limit 0 z0 k hk hesc hmin
    simpa [julia] using this
  · intro cr ci z0 limit h
    exact shaderLoop_bounded cr ci limit 0 z0 h
  · intro c limit
    rfl
  · exact mandelbrot_two_two
  · norm_num [mandelbrot, shaderLoop]

/-- Witness for C1: the Julia routine with `c = (1/100, 1/100)` started at `(3, 0)`
returns `Escaped 0`, and Mandelbrot at `(2, 2)` with limit 8 returns `Escaped 1`. -/
theorem discrete_evaluator_least_index_witness :
    julia (1 / 100) (1 / 100) (3, 0) 8 = EscapeResult.Escaped 0 ∧
      mandelbrot (2, 2) 8 = EscapeResult.Escaped 1 :=
  ⟨discrete_evaluator_least_index.1 (1 / 100) (1 / 100) (3, 0) 8 0 (by norm_num)
      (by norm_num [specOrbit, normSq2]) (fun j hj => absurd hj (Nat.not_lt_zero j)),
    discrete_evaluator_least_index.2.2.2.1 8 (by norm_num)⟩

/-- C1 as stated fails: for Mandelbrot at `c = (2, 2)` the value of `z` after one
update already has `|z|² = 8 > 4`, so the stated index is 0, yet the routine
returns `Escaped 1` for limit 8 and `Bounded` for limit 1. -/
theorem discrete_evaluator_not_updated_value :
    4 < normSq2 (specOrbit 2 2 (0, 0) (0 + 1)) ∧
      mandelbrot (2, 2) 8 = EscapeResult.Escaped 1 ∧
      mandelbrot (2, 2) 8 ≠ EscapeResult.Escaped 0 ∧
      mandelbrot (2, 2) 1 ≠ EscapeResult.Escaped 0 := by
  refine ⟨by norm_num [specOrbit, specStep, normSq2], mandelbrot_two_two_eight, ?_, ?_⟩
  · rw [mandelbrot_two_two_eight]
    decide
  · have h1 : mandelbrot (2, 2) 1 = EscapeResult.Bounded := by
      norm_num [mandelbrot, shaderLoop]
    rw [h1]
    decide

/-! ## Continuous against discrete -/

/-- C2 (as the code has it, in exact arithmetic over the reals): whenever both
evaluators report an escape for the same `c` and `limit`, the discrete index `i`
(radius 2) is at most the loop index `j` at which `mandelbrotFrac` breaks
(radius 16), and `floor(mandelbrotFrac)` is strictly below `j`.  The strict bound
rests on `sqrt(zr2 + zi2) > 16` holding exactly; it is a statement about real
`sqrt`, `log` and `log2`, not about their rounded values. -/
theorem frac_floor_below_break_index (cr ci : ℚ) (limit i : ℕ)
    (hd : mandelbrot (cr, ci) limit = EscapeResult.Escaped i)
    (hc : (fracExit cr ci limit).i < limit) :
    i ≤ (fracExit cr ci limit).i ∧
      ⌊mandelbrotFrac cr ci limit⌋ < ((fracExit cr ci limit).i : ℤ) := by
  constructor
  · have hesc := (fracExit_escape cr ci limit hc).2.2
    rcases shaderLoop_cases cr ci limit 0 (0, 0) with ⟨k, _, _, hmin, hk⟩ | ⟨hno, _⟩
    · have hk' : mandelbrot (cr, ci) limit = EscapeResult.Escaped (0 + k) := hk
      rw [hd] at hk'
      have hik : i = k := by simpa using hk'
      subst hik
      by_contra hlt
      exact hmin (fracExit cr ci limit).i (by omega) (by linarith)
    · exact absurd (by linarith) (hno (fracExit cr ci limit).i hc)
  · rw [Int.floor_lt]
    exact_mod_cast mandelbrotFrac_lt_index cr ci limit hc

/-- Witness for C2 at `c = (2, 2)`, `limit = 8`. -/
theorem frac_floor_below_break_index_witness :
    mandelbrot (2, 2) 8 = EscapeResult.Escaped 1 ∧ (fracExit 2 2 8).i < 8 ∧
      (1 ≤ (fracExit 2 2 8).i ∧ ⌊mandelbrotFrac 2 2 8⌋ < ((fracExit 2 2 8).i : ℤ)) :=
  ⟨mandelbrot_two_two_eight, by rw [fracExit_two_two]; norm_num,
    frac_floor_below_break_index 2 2 8 1 mandelbrot_two_two_eight
      (by rw [fracExit_two_two]; norm_num)⟩

/-- C2 as stated fails at `c = (2, 2)`, `limit = 8`: both evaluators report an
escape, the discrete index is 1, and `floor(mandelbrotFrac(2, 2, 8))` is 2. -/
theorem frac_floor_ne_discrete_index :
    mandelbrot (2, 2) 8 = EscapeResult.Escaped 1 ∧ (fracExit 2 2 8).i < 8 ∧
      ⌊mandelbrotFrac 2 2 8⌋ = 2 ∧ ⌊mandelbrotFrac 2 2 8⌋ ≠ 1 := by
  have hc : (fracExit 2 2 8).i < 8 := by rw [fracExit_two_two]; norm_num
  have hfl : ⌊mandelbrotFrac 2 2 8⌋ = 2 := by
    rw [Int.floor_eq_iff]
    have hv := mandelbrotFrac_escape 2 2 8 hc
    rw [fracExit_two_two] at hv
    simp only at hv
    constructor
    · rw [hv]
      have := smoothing_ge 3 1 (((8836 + 1764 : ℚ)) : ℝ) (by norm_num) (by norm_num)
      norm_num at this ⊢
      linarith
    · rw [hv]
      have := smoothing_lt 3 (((8836 + 1764 : ℚ)) : ℝ) (by norm_num)
      norm_num at this ⊢
      linarith
  exact ⟨mandelbrot_two_two_eight, hc, hfl, by rw [hfl]; decide⟩

/-! ## Domain of the logarithm -/

/-- C3 (as the code has it): whenever `mandelbrotFrac` takes its escape branch
(`i < limit`), `zr2 + zi2 > 256`, so `modulus = sqrt(zr2 + zi2) > 16` and
`log(modulus) > 0`: the argument of `log2` is positive. -/
theorem frac_escape_modulus_gt (cr ci : ℚ) (limit : ℕ)
    (h : (fracExit cr ci limit).i < limit) :
    256 < (fracExit cr ci limit).zr2 + (fracExit cr ci limit).zi2 ∧
      16 < fracModulus cr ci limit ∧ 0 < Real.log (fracModulus cr ci limit) :=
  ⟨(fracExit_escape cr ci limit h).2.1, fracModulus_gt cr ci limit h⟩

/-- Witness for C3 at `c = (2, 2)`, `limit = 8`. -/
theorem frac_escape_modulus_gt_witness :
    (fracExit 2 2 8).i < 8 ∧
      (256 < (fracExit 2 2 8).zr2 + (fracExit 2 2 8).zi2 ∧
        16 < fracModulus 2 2 8 ∧ 0 < Real.log (fracModulus 2 2 8)) :=
  ⟨by rw [fracExit_two_two]; norm_num,
    frac_escape_modulus_gt 2 2 8 (by rw [fracExit_two_two]; norm_num)⟩

/-- C3 as stated fails: no point and limit take the escape branch with
`modulus ≤ 1`. -/
theorem frac_no_escape_with_small_modulus :
    ¬ ∃ (cr ci : ℚ) (limit : ℕ),
      (fracExit cr ci limit).i < limit ∧ fracModulus cr ci limit ≤ 1 := by
  rintro ⟨cr, ci, limit, h, hm⟩
  have := (fracModulus_gt cr ci limit h).1
  linarith

/-! ## Frame recomputation -/

/-- Closed form of one call of `recomputeFrame` with a selector other than 1. -/
theorem recomputeFrame_eq (v : View) (h : v.frameSel ≠ 1) :
    recomputeFrame v =
      { frame :=
          { minr := v.frame.minr + ((v.posx + 1) / 2) * v.frame.width -
              (1 / 2) * (v.frame.width *
                (if v.zoom = Zoom.zoomIn then 1 / (v.frameSel : ℚ) else (v.frameSel : ℚ)))
            mini := v.frame.mini + ((v.posy + 1) / 2) * v.frame.height -
              (1 / 2) * (v.frame.height *
                (if v.zoom = Zoom.zoomIn then 1 / (v.frameSel : ℚ) else (v.frameSel : ℚ)))
            width := v.frame.width *
              (if v.zoom = Zoom.zoomIn then 1 / (v.frameSel : ℚ) else (v.frameSel : ℚ))
            height := v.frame.height *
              (if v.zoom = Zoom.zoomIn then 1 / (v.frameSel : ℚ) else (v.frameSel : ℚ)) }
        posx := 0
        posy := 0
        frameSel := v.frameSel
        zoom := v.zoom } := by
  simp only [recomputeFrame, if_neg h]

/-- Zoom in then out at one selector: the size returns, the origin moves by the
marker offset. -/
theorem zoomInThenOut_frame (fr : Frame) (f : ℕ) (px py : ℚ) (h1 : f ≠ 1) (h0 : f ≠ 0) :
    (zoomInThenOut fr f px py).frame =
      { minr := fr.minr + (px / 2) * fr.width
        mini := fr.mini + (py / 2) * fr.height
        width := fr.width
        height := fr.height } := by
  have hf : (f : ℚ) ≠ 0 := by exact_mod_cast h0
  have e : ∀ (a b c d a' b' c' d' : ℚ), a = a' → b = b' → c = c' → d = d' →
      ({ minr := a, mini := b, width := c, height := d } : Frame) =
        { minr := a', mini := b', width := c', height := d' } := by
    intro a b c d a' b' c' d' ha hb hc hd
    rw [ha, hb, hc, hd]
  have hin : recomputeFrame
      { frame := fr, posx := px, posy := py, frameSel := f, zoom := Zoom.zoomIn } = _ :=
    recomputeFrame_eq _ h1
  rw [zoomInThenOut, hin, recomputeFrame_eq _ h1]
  simp only [if_true, reduceCtorEq, if_false]
  apply e <;> field_simp <;> ring

/-- C4 (as the code has it): for every frame with positive width and height, every
selector `f` in {2, 3, 4} and every marker position `(px, py)` at the first call,
zoom 'in' followed by zoom 'out' at the same selector restores width and height and
yields the origin `(minr + (px/2)·width, mini + (py/2)·height)`; the frame equals
the original in all four components exactly when the marker was at `(0, 0)`. -/
theorem zoom_round_trip (fr : Frame) (f : ℕ) (px py : ℚ)
    (hw : 0 < fr.width) (hh : 0 < fr.height) (hf : f = 2 ∨ f = 3 ∨ f = 4) :
    (zoomInThenOut fr f px py).frame =
        { minr := fr.minr + (px / 2) * fr.width
          mini := fr.mini + (py / 2) * fr.height
          width := fr.width
          height := fr.height } ∧
      ((zoomInThenOut fr f px py).frame = fr ↔ px = 0 ∧ py = 0) := by
  have h1 : f ≠ 1 := by omega
  have h0 : f ≠ 0 := by omega
  have hfr := zoomInThenOut_frame fr f px py h1 h0
  refine ⟨hfr, ?_⟩
  rw [hfr]
  constructor
  · intro h
    have hr : fr.minr + (px / 2) * fr.width = fr.minr := congrArg Frame.minr h
    have hi : fr.mini + (py / 2) * fr.height = fr.mini := congrArg Frame.mini h
    have hr' : px * fr.width = 0 := by linarith
    have hi' : py * fr.height = 0 := by linarith
    constructor
    · rcases mul_eq_zero.mp hr' with hx | hx
      · exact hx
      · exact absurd hx (ne_of_gt hw)
    · rcases mul_eq_zero.mp hi' with hy | hy
      · exact hy
      · exact absurd hy (ne_of_gt hh)
  · rintro ⟨hx, hy⟩
    subst hx
    subst hy
    cases fr
    simp

/-- Witness for C4: the initial Julia frame, selector 2, marker at `(1/2, 0)`. -/
theorem zoom_round_trip_witness :
    (zoomInThenOut JuliaAN.frame 2 (1 / 2) 0).frame =
        { minr := JuliaAN.frame.minr + ((1 / 2 : ℚ) / 2) * JuliaAN.frame.width
          mini := JuliaAN.frame.mini + ((0 : ℚ) / 2) * JuliaAN.frame.height
          width := JuliaAN.frame.width
          height := JuliaAN.frame.height } ∧
      ((zoomInThenOut JuliaAN.frame 2 (1 / 2) 0).frame = JuliaAN.frame ↔
        (1 / 2 : ℚ) = 0 ∧ (0 : ℚ) = 0) :=
  zoom_round_trip JuliaAN.frame 2 (1 / 2) 0 (by norm_num [JuliaAN.frame])
    (by norm_num [JuliaAN.frame]) (Or.inl rfl)

/-- C4 as stated fails: from the initial Julia frame `[-1.5, -1.5, 3.01, 3.01]`
with selector 2 and the marker at `(1/2, 0)`, zoom 'in' then zoom 'out' gives
`[-0.7475, -1.5, 3.01, 3.01]`, not the original frame. -/
theorem zoom_round_trip_moves_frame :
    0 < JuliaAN.frame.width ∧ 0 < JuliaAN.frame.height ∧
      (zoomInThenOut JuliaAN.frame 2 (1 / 2) 0).frame =
        { minr := -299 / 400, mini := -3 / 2, width := 301 / 100, height := 301 / 100 } ∧
      (zoomInThenOut JuliaAN.frame 2 (1 / 2) 0).frame ≠ JuliaAN.frame := by
  have h := zoomInThenOut_frame JuliaAN.frame 2 (1 / 2) 0 (by norm_num) (by norm_num)
  have hfr : (zoomInThenOut JuliaAN.frame 2 (1 / 2) 0).frame =
      { minr := -299 / 400, mini := -3 / 2, width := 301 / 100, height := 301 / 100 } := by
    rw [h]
    norm_num [JuliaAN.frame]
  refine ⟨by norm_num [JuliaAN.frame], by norm_num [JuliaAN.frame], hfr, ?_⟩
  rw [hfr]
  intro hne
  have := congrArg Frame.minr hne
  norm_num [JuliaAN.frame] at this

/-- C9: for frame `[minr, mini, w, h]`, marker `(px, py)`, selector `f` in {2, 3, 4}
and scale `s = 1/f` for zoom 'in', `s = f` for zoom 'out', `recomputeFrame` replaces
the frame by `[P_r - w·s/2, P_i - h·s/2, w·s, h·s]` with
`P = (minr + ((px+1)/2)·w, mini + ((py+1)/2)·h)`, so the new frame has size
`(w·s, h·s)` and centre `P`, and it resets the marker to `(0, 0)`; with selector 1
the state is left unchanged. -/
theorem recomputeFrame_reference :
    (∀ (fr : Frame) (px py : ℚ) (f : ℕ) (z : Zoom), (f = 2 ∨ f = 3 ∨ f = 4) →
      (recomputeFrame { frame := fr, posx := px, posy := py, frameSel := f, zoom := z }).frame =
          { minr := (fr.minr + ((px + 1) / 2) * fr.width) -
              fr.width * (if z = Zoom.zoomIn then 1 / (f : ℚ) else (f : ℚ)) / 2
            mini := (fr.mini + ((py + 1) / 2) * fr.height) -
              fr.height * (if z = Zoom.zoomIn then 1 / (f : ℚ) else (f : ℚ)) / 2
            width := fr.width * (if z = Zoom.zoomIn then 1 / (f : ℚ) else (f : ℚ))
            height := fr.height * (if z = Zoom.zoomIn then 1 / (f : ℚ) else (f : ℚ)) } ∧
        (recomputeFrame
            { frame := fr, posx := px, posy := py, frameSel := f, zoom := z }).frame.minr +
          (recomputeFrame
            { frame := fr, posx := px, posy := py, frameSel := f, zoom := z }).frame.width / 2 =
            fr.minr + ((px + 1) / 2) * fr.width ∧
        (recomputeFrame
            { frame := fr, posx := px, posy := py, frameSel := f, zoom := z }).frame.mini +
          (recomputeFrame
            { frame := fr, posx := px, posy := py, frameSel := f, zoom := z }).frame.height / 2 =
            fr.mini + ((py + 1) / 2) * fr.height ∧
        (recomputeFrame
            { frame := fr, posx := px, posy := py, frameSel := f, zoom := z }).posx = 0 ∧
        (recomputeFrame
            { frame := fr, posx := px, posy := py, frameSel := f, zoom := z }).posy = 0) ∧
    (∀ v : View, v.frameSel = 1 → recomputeFrame v = v) := by
  constructor
  · intro fr px py f z hf
    have h1 : f ≠ 1 := by omega
    have hv : recomputeFrame
        { frame := fr, posx := px, posy := py, frameSel := f, zoom := z } = _ :=
      recomputeFrame_eq _ h1
    rw [hv]
    refine ⟨?_, ?_, ?_, rfl, rfl⟩
    · simp only [Frame.mk.injEq, and_true]
      constructor <;> ring
    · simp only
      ring
    · simp only
      ring
  · intro v hv
    simp only [recomputeFrame, if_pos hv]

/-- Witness for C9: zooming out by 4 from the initial frame of mandelbrot3D_EN.js with
the marker at the centre, and the no-op at selector 1. -/
theorem recomputeFrame_reference_witness :
    (recomputeFrame
        { frame := Mandelbrot3D.frame, posx := 0, posy := 0, frameSel := 4,
          zoom := Zoom.zoomOut }).frame =
      { minr := -27 / 4, mini := -12003 / 2000, width := 62 / 5, height := 3001 / 250 } ∧
    recomputeFrame
        { frame := Mandelbrot3D.frame, posx := 1 / 3, posy := 0, frameSel := 1,
          zoom := Zoom.zoomIn } =
      { frame := Mandelbrot3D.frame, posx := 1 / 3, posy := 0, frameSel := 1,
        zoom := Zoom.zoomIn } := by
  refine ⟨?_, recomputeFrame_reference.2 _ rfl⟩
  rw [(recomputeFrame_reference.1 Mandelbrot3D.frame 0 0 4 Zoom.zoomOut
    (Or.inr (Or.inr rfl))).1]
  simp only [reduceCtorEq, if_false]
  norm_num [Mandelbrot3D.frame]

/-! ## Binary palette -/

/-- Entry `i` of the binary palette. -/
theorem updateColors_binary_getElem? (setHSL : ℚ → ℚ → ℚ → Color) (levels : ℕ)
    (color1 color2 : Color) (i : ℕ) (hi : i ≤ levels) :
    (updateColors setHSL levels ColorModel.binary color1 color2)[i]? =
      some (if i % 2 = 0 then (if levels % 2 = 0 then color2 else color1)
        else (if levels % 2 = 0 then color1 else color2)) := by
  simp only [updateColors, List.getElem?_map]
  rw [List.getElem?_range (by omega)]
  by_cases hl : levels % 2 = 0 <;> simp [hl]

/-- C5 (as the code has it): for every levels (in particular every levels in
[2, 64]) and colours color1, color2, the binary palette has `colors[levels] = color2`; `colors[0] = color2` when levels is
even and `colors[0] = color1` when levels is odd, so `colors[0]` equals
`colors[levels]` exactly when levels is even or the two colours coincide. -/
theorem binary_palette_endpoints (setHSL : ℚ → ℚ → ℚ → Color) (levels : ℕ)
    (color1 color2 : Color) :
    (updateColors setHSL levels ColorModel.binary color1 color2)[levels]? = some color2 ∧
      (levels % 2 = 0 →
        (updateColors setHSL levels ColorModel.binary color1 color2)[0]? = some color2) ∧
      (levels % 2 = 1 →
        (updateColors setHSL levels ColorModel.binary color1 color2)[0]? = some color1) ∧
      ((updateColors setHSL levels ColorModel.binary color1 color2)[0]? =
          (updateColors setHSL levels ColorModel.binary color1 color2)[levels]? ↔
        levels % 2 = 0 ∨ color1 = color2) := by
  have h0 := updateColors_binary_getElem? setHSL levels color1 color2 0 (Nat.zero_le _)
  have hl := updateColors_binary_getElem? setHSL levels color1 color2 levels (le_refl _)
  rw [h0, hl]
  rcases Nat.mod_two_eq_zero_or_one levels with he | ho
  · simp [he]
  · have hne : ¬ levels % 2 = 0 := by omega
    simp [ho]

/-- Witness for C5 at levels 8 and levels 3. -/
theorem binary_palette_endpoints_witness :
    (updateColors (fun _ _ l => ⟨l, l, l⟩) 8 ColorModel.binary ⟨1, 0, 0⟩ ⟨0, 0, 1⟩)[0]? =
        some ⟨0, 0, 1⟩ ∧
      (updateColors (fun _ _ l => ⟨l, l, l⟩) 3 ColorModel.binary ⟨1, 0, 0⟩ ⟨0, 0, 1⟩)[3]? =
        some ⟨0, 0, 1⟩ :=
  ⟨(binary_palette_endpoints (fun _ _ l => ⟨l, l, l⟩) 8 ⟨1, 0, 0⟩ ⟨0, 0, 1⟩).2.1
      (by norm_num),
    (binary_palette_endpoints (fun _ _ l => ⟨l, l, l⟩) 3 ⟨1, 0, 0⟩ ⟨0, 0, 1⟩).1⟩

/-- C5 as stated fails for odd levels: with levels = 3, color1 = red and
color2 = blue the palette is `[red, blue, red, blue]`, so `colors[0]` is red and
`colors[3]` is blue. -/
theorem binary_palette_odd_levels_differ :
    updateColors (fun _ _ l => ⟨l, l, l⟩) 3 ColorModel.binary ⟨1, 0, 0⟩ ⟨0, 0, 1⟩ =
        [⟨1, 0, 0⟩, ⟨0, 0, 1⟩, ⟨1, 0, 0⟩, ⟨0, 0, 1⟩] ∧
      (updateColors (fun _ _ l => ⟨l, l, l⟩) 3 ColorModel.binary ⟨1, 0, 0⟩ ⟨0, 0, 1⟩)[0]? ≠
        (updateColors (fun _ _ l => ⟨l, l, l⟩) 3 ColorModel.binary ⟨1, 0, 0⟩ ⟨0, 0, 1⟩)[3]? := by
  have h : updateColors (fun _ _ l => ⟨l, l, l⟩) 3 ColorModel.binary ⟨1, 0, 0⟩ ⟨0, 0, 1⟩ =
      [⟨1, 0, 0⟩, ⟨0, 0, 1⟩, ⟨1, 0, 0⟩, ⟨0, 0, 1⟩] := by
    simp [updateColors, List.range_succ]
  refine ⟨h, ?_⟩
  rw [h]
  simp

/-! ## Height inversion -/

theorem invertLoop_length {α : Type} [Add α] [Neg α] [One α] (n : ℕ) :
    ∀ (i : ℕ) (pa : List α), pa.length - i ≤ n → (invertLoop i pa).length = pa.length := by
  induction n with
  | zero =>
    intro i pa h
    rw [invertLoop, dif_neg (by omega)]
  | succ n ih =>
    intro i pa h
    rw [invertLoop]
    by_cases hi : i < pa.length
    · rw [dif_pos hi, ih (i + 3) _ (by rw [List.length_set]; omega), List.length_set]
    · rw [dif_neg hi]

/-- Entry `k` after the loop entered with counter `i`: entries `i, i+3, i+6, …` are
replaced by `-(1 + x)`, the others are kept. -/
theorem invertLoop_getElem? {α : Type} [Add α] [Neg α] [One α] (n : ℕ) :
    ∀ (i : ℕ) (pa : List α) (k : ℕ), pa.length - i ≤ n →
      (invertLoop i pa)[k]? =
        if i ≤ k ∧ (k - i) % 3 = 0 then (pa[k]?).map (fun x => -(1 + x)) else pa[k]? := by
  induction n with
  | zero =>
    intro i pa k h
    rw [invertLoop, dif_neg (by omega)]
    split_ifs with hk
    · have : pa.length ≤ k := by omega
      rw [List.getElem?_eq_none this]
      rfl
    · rfl
  | succ n ih =>
    intro i pa k h
    rw [invertLoop]
    by_cases hi : i < pa.length
    · rw [dif_pos hi, ih (i + 3) _ k (by rw [List.length_set]; omega)]
      by_cases hki : k = i
      · subst hki
        have h1 : ¬ (k + 3 ≤ k ∧ (k - (k + 3)) % 3 = 0) := by omega
        have h2 : k ≤ k ∧ (k - k) % 3 = 0 := by simp
        rw [if_neg h1, if_pos h2, List.getElem?_set_self hi, List.getElem?_eq_getElem hi]
        rfl
      · rw [List.getElem?_set_ne (fun e => hki e.symm)]
        by_cases hc : i ≤ k ∧ (k - i) % 3 = 0
        · have : i + 3 ≤ k ∧ (k - (i + 3)) % 3 = 0 := by omega
          rw [if_pos this, if_pos hc]
        · have : ¬ (i + 3 ≤ k ∧ (k - (i + 3)) % 3 = 0) := by omega
          rw [if_neg this, if_neg hc]
    · rw [dif_neg hi]
      split_ifs with hk
      · have : pa.length ≤ k := by omega
        rw [List.getElem?_eq_none this]
        rfl
      · rfl

/-- Entry `k` of the inverted position array. -/
theorem invert_getElem? {α : Type} [Add α] [Neg α] [One α] (pa : List α) (k : ℕ) :
    (invertMandelbrotLandscape pa)[k]? =
      if k % 3 = 2 then (pa[k]?).map (fun x => -(1 + x)) else pa[k]? := by
  rw [invertMandelbrotLandscape, invertLoop_getElem? pa.length 2 pa k (by omega)]
  by_cases h : k % 3 = 2
  · rw [if_pos h, if_pos (by omega)]
  · rw [if_neg h, if_neg (by omega)]

/-- C10: applying `invertMandelbrotLandscape` twice restores the position array
(every height `h` goes `h → -(1 + h) → h`), each application keeps the length,
replaces exactly the entries at index 2, 5, 8, … by `-(1 + h)` and leaves the
x and y components (indices not congruent to 2 mod 3) unchanged. -/
theorem invert_involution {α : Type} [Ring α] (pa : List α) :
    invertMandelbrotLandscape (invertMandelbrotLandscape pa) = pa ∧
      (invertMandelbrotLandscape pa).length = pa.length ∧
      (∀ k : ℕ, k % 3 = 2 →
        (invertMandelbrotLandscape pa)[k]? = (pa[k]?).map (fun h => -(1 + h))) ∧
      (∀ k : ℕ, k % 3 ≠ 2 → (invertMandelbrotLandscape pa)[k]? = pa[k]?) := by
  refine ⟨?_, invertLoop_length pa.length 2 pa (by omega), ?_, ?_⟩
  · apply List.ext_getElem?
    intro k
    rw [invert_getElem?, invert_getElem?]
    by_cases h : k % 3 = 2
    · rw [if_pos h, if_pos h, Option.map_map]
      have hf : ((fun x : α => -(1 + x)) ∘ fun x : α => -(1 + x)) = id := by
        funext x
        simp only [Function.comp_apply, id_eq]
        abel
      rw [hf, Option.map_id, id_eq]
    · rw [if_neg h, if_neg h]
  · intro k hk
    rw [invert_getElem?, if_pos hk]
  · intro k hk
    rw [invert_getElem?, if_neg hk]

/-- Witness for C10 on a two-vertex position array. -/
theorem invert_involution_witness :
    invertMandelbrotLandscape (invertMandelbrotLandscape [(1 : ℚ), 2, -1 / 4, 3, 4, -1]) =
        [1, 2, -1 / 4, 3, 4, -1] ∧
      (invertMandelbrotLandscape [(1 : ℚ), 2, -1 / 4, 3, 4, -1])[(5 : ℕ)]? =
        ([(1 : ℚ), 2, -1 / 4, 3, 4, -1][(5 : ℕ)]?).map (fun h => -(1 + h)) ∧
      (invertMandelbrotLandscape [(1 : ℚ), 2, -1 / 4, 3, 4, -1])[(4 : ℕ)]? =
        [(1 : ℚ), 2, -1 / 4, 3, 4, -1][(4 : ℕ)]? :=
  ⟨(invert_involution [(1 : ℚ), 2, -1 / 4, 3, 4, -1]).1,
    (invert_involution [(1 : ℚ), 2, -1 / 4, 3, 4, -1]).2.2.1 5 (by norm_num),
    (invert_involution [(1 : ℚ), 2, -1 / 4, 3, 4, -1]).2.2.2 4 (by norm_num)⟩

/-! ## Continuous escape value against the reference orbit -/

/-- C8: with `z_0 = 0` and `z_{k+1} = z_k² + c`, `mandelbrotFrac(cr, ci, limit)`
returns exactly `limit` when no `k < limit` has `|z_k|² > 256`, and otherwise returns
`i + log2(ln 16) − log2(ln m)` where `i` is the least index with `|z_i|² > 256` (the
iteration at which the test fires) and `m = |z_i|`. -/
theorem mandelbrotFrac_reference (cr ci : ℚ) (limit : ℕ) :
    ((∀ k, k < limit → ¬ 256 < normSq2 (specOrbit cr ci (0, 0) k)) →
        mandelbrotFrac cr ci limit = (limit : ℝ)) ∧
      (∀ i, i < limit → 256 < normSq2 (specOrbit cr ci (0, 0) i) →
        (∀ j, j < i → ¬ 256 < normSq2 (specOrbit cr ci (0, 0) j)) →
        mandelbrotFrac cr ci limit =
          (i : ℝ) + Real.logb 2 (Real.log 16) -
            Real.logb 2 (Real.log (Real.sqrt ((normSq2 (specOrbit cr ci (0, 0) i) : ℚ) : ℝ)))) := by
  constructor
  · intro hno
    rcases fracExit_cases cr ci limit with ⟨k, hk, hesc, _, _, _⟩ | ⟨_, hi⟩
    · exact absurd hesc (hno k hk)
    · exact mandelbrotFrac_bounded cr ci limit (by omega)
  · intro i hi hesc hmin
    rcases fracExit_cases cr ci limit with ⟨k, hk, hesck, hmink, hik, hsq⟩ | ⟨hno, _⟩
    · have hki : k = i := by
        rcases lt_trichotomy k i with h | h | h
        · exact absurd hesck (hmin k h)
        · exact h
        · exact absurd hesc (hmink i h)
      subst hki
      have hR : ((R : ℚ) : ℝ) = 16 := by norm_num [R]
      rw [mandelbrotFrac_escape cr ci limit (by omega), hik, hsq, Rp, hR]
    · exact absurd hesc (hno i hi)

/-- Witness for C8: `c = 0` is bounded for limit 8, and `c = (2, 2)` escapes at
index 3 with `|z_3|² = 10600`. -/
theorem mandelbrotFrac_reference_witness :
    mandelbrotFrac 0 0 8 = ((8 : ℕ) : ℝ) ∧
      mandelbrotFrac 2 2 8 =
        ((3 : ℕ) : ℝ) + Real.logb 2 (Real.log 16) -
          Real.logb 2 (Real.log (Real.sqrt ((normSq2 (specOrbit 2 2 (0, 0) 3) : ℚ) : ℝ))) :=
  ⟨(mandelbrotFrac_reference 0 0 8).1 (fun k hk => by
      have h0 : ∀ n, specOrbit 0 0 (0, 0) n = (0, 0) := by
        intro n
        induction n with
        | zero => rfl
        | succ n ih =>
          rw [specOrbit, ih]
          simp [specStep]
      rw [h0 k]
      norm_num [normSq2]),
    (mandelbrotFrac_reference 2 2 8).2 3 (by norm_num)
      (by norm_num [specOrbit, specStep, normSq2])
      (fun j hj => by
        interval_cases j <;> norm_num [specOrbit, specStep, normSq2])⟩

/-! ## Landscape heights and palette indices -/

theorem fracLoop_zero (cr ci : ℚ) (s : FracState) : fracLoop cr ci 0 s = s := rfl

theorem fracExit_zero_eight :
    fracExit 0 0 8 = { i := 8, zr := 0, zi := 0, zr2 := 0, zi2 := 0 } := by
  norm_num [fracExit, fracLoop_step, fracLoop_zero, specStep, normSq2]

/-- Height stored for a bounded sample. -/
theorem height_bounded (fr : Frame) (res limit i j : ℕ) (hl : 1 ≤ limit)
    (hbd : ¬ (fracExit (gridPoint fr res i j).1 (gridPoint fr res i j).2 limit).i < limit) :
    (mandelbrotLandscapeGeom fr res limit i j).height = -1 := by
  have hl' : (limit : ℝ) ≠ 0 := by
    have : (0 : ℝ) < (limit : ℝ) := by exact_mod_cast hl
    exact ne_of_gt this
  simp only [mandelbrotLandscapeGeom, mandelbrotFrac_bounded _ _ _ hbd, heightOf3DLandscape]
  rw [div_self hl']
  norm_num

/-- Height stored for an escaped sample. -/
theorem height_escaped (fr : Frame) (res limit i j : ℕ)
    (hesc : (fracExit (gridPoint fr res i j).1 (gridPoint fr res i j).2 limit).i < limit) :
    -1 < (mandelbrotLandscapeGeom fr res limit i j).height := by
  have hlt := mandelbrotFrac_lt_index _ _ _ hesc
  have hil : ((fracExit (gridPoint fr res i j).1 (gridPoint fr res i j).2 limit).i : ℝ) <
      (limit : ℝ) := by exact_mod_cast hesc
  have hpos : (0 : ℝ) < (limit : ℝ) := by
    have : (0 : ℝ) ≤ ((fracExit (gridPoint fr res i j).1 (gridPoint fr res i j).2 limit).i : ℝ) :=
      Nat.cast_nonneg _
    linarith
  have hdiv : mandelbrotFrac (gridPoint fr res i j).1 (gridPoint fr res i j).2 limit /
      (limit : ℝ) < 1 := by
    rw [div_lt_one hpos]
    linarith
  simp only [mandelbrotLandscapeGeom, heightOf3DLandscape]
  norm_num
  linarith

/-- C6 (as the code has it): for every limit at least 1, the height stored for a
bounded sample is exactly `-1` and the height stored for any sample that escapes is
strictly greater than `-1`: escaped samples lie above bounded samples. -/
theorem landscape_escaped_above_bounded (fr : Frame) (res limit i j i' j' : ℕ)
    (hl : 1 ≤ limit)
    (hesc : (fracExit (gridPoint fr res i j).1 (gridPoint fr res i j).2 limit).i < limit)
    (hbd : ¬ (fracExit (gridPoint fr res i' j').1 (gridPoint fr res i' j').2 limit).i < limit) :
    (mandelbrotLandscapeGeom fr res limit i' j').height = -1 ∧
      (mandelbrotLandscapeGeom fr res limit i' j').height <
        (mandelbrotLandscapeGeom fr res limit i j).height := by
  have hb := height_bounded fr res limit i' j' hl hbd
  have he := height_escaped fr res limit i j hesc
  exact ⟨hb, by rw [hb]; exact he⟩

theorem gridPoint_sample_one :
    gridPoint { minr := 0, mini := 0, width := 4, height := 4 } 1 1 1 = (2, 2) := by
  norm_num [gridPoint]

theorem gridPoint_sample_zero :
    gridPoint { minr := 0, mini := 0, width := 4, height := 4 } 1 0 0 = (0, 0) := by
  norm_num [gridPoint]

/-- Witness for C6: frame `[0, 0, 4, 4]`, `res = 1`, `limit = 8`; cell `(1, 1)` is the
point `(2, 2)`, which escapes, and cell `(0, 0)` is the point `(0, 0)`, which is
bounded. -/
theorem landscape_escaped_above_bounded_witness :
    (mandelbrotLandscapeGeom { minr := 0, mini := 0, width := 4, height := 4 } 1 8 0 0).height
        = -1 ∧
      (mandelbrotLandscapeGeom { minr := 0, mini := 0, width := 4, height := 4 } 1 8 0 0).height <
        (mandelbrotLandscapeGeom { minr := 0, mini := 0, width := 4, height := 4 } 1 8 1 1).height :=
  landscape_escaped_above_bounded { minr := 0, mini := 0, width := 4, height := 4 } 1 8 1 1 0 0
    (by norm_num)
    (by rw [gridPoint_sample_one, fracExit_two_two]; norm_num)
    (by rw [gridPoint_sample_zero, fracExit_zero_eight]; norm_num)

/-- C6 as stated fails: in the grid over frame `[0, 0, 4, 4]` with `res = 1` and
`limit = 8`, cell `(1, 1)` (the point `(2, 2)`) escapes and cell `(0, 0)` (the point
`(0, 0)`) is bounded, yet the escaped height is not lower than the bounded one. -/
theorem landscape_escaped_not_below_bounded :
    (fracExit (gridPoint { minr := 0, mini := 0, width := 4, height := 4 } 1 1 1).1
        (gridPoint { minr := 0, mini := 0, width := 4, height := 4 } 1 1 1).2 8).i < 8 ∧
      ¬ (fracExit (gridPoint { minr := 0, mini := 0, width := 4, height := 4 } 1 0 0).1
        (gridPoint { minr := 0, mini := 0, width := 4, height := 4 } 1 0 0).2 8).i < 8 ∧
      ¬ (mandelbrotLandscapeGeom { minr := 0, mini := 0, width := 4, height := 4 } 1 8 1 1).height <
        (mandelbrotLandscapeGeom { minr := 0, mini := 0, width := 4, height := 4 } 1 8 0 0).height := by
  have hesc : (fracExit (gridPoint { minr := 0, mini := 0, width := 4, height := 4 } 1 1 1).1
      (gridPoint { minr := 0, mini := 0, width := 4, height := 4 } 1 1 1).2 8).i < 8 := by
    rw [gridPoint_sample_one, fracExit_two_two]; norm_num
  have hbd : ¬ (fracExit (gridPoint { minr := 0, mini := 0, width := 4, height := 4 } 1 0 0).1
      (gridPoint { minr := 0, mini := 0, width := 4, height := 4 } 1 0 0).2 8).i < 8 := by
    rw [gridPoint_sample_zero, fracExit_zero_eight]; norm_num
  refine ⟨hesc, hbd, ?_⟩
  have hb := height_bounded _ 1 8 0 0 (by norm_num) hbd
  have he := height_escaped _ 1 8 1 1 hesc
  rw [hb]
  linarith

/-- One press of `Go` with selector 4, zoom 'out' and the marker at the centre. -/
theorem zoomOut4_step (fr : Frame) :
    recomputeFrame { frame := fr, posx := 0, posy := 0, frameSel := 4, zoom := Zoom.zoomOut } =
      { frame := { minr := fr.minr - 3 / 2 * fr.width, mini := fr.mini - 3 / 2 * fr.height,
                   width := 4 * fr.width, height := 4 * fr.height },
        posx := 0, posy := 0, frameSel := 4, zoom := Zoom.zoomOut } := by
  rw [recomputeFrame_eq _ (by norm_num)]
  simp only [reduceCtorEq, if_false, View.mk.injEq, Frame.mk.injEq, and_true]
  norm_num
  refine ⟨?_, ?_, ?_, ?_⟩ <;> ring

/-- The frame reached from the initial frame of mandelbrot3D_EN.js by sixteen presses
of `Go` with selector 4 and zoom 'out'. -/
theorem frame_after_sixteen_zoom_outs :
    (recomputeFrame^[16]
      { frame := Mandelbrot3D.frame, posx := 0, posy := 0, frameSel := 4,
        zoom := Zoom.zoomOut }).frame =
      { minr := -133143986187 / 20, mini := -2577839371059 / 400,
        width := 66571993088 / 5, height := 1611149606912 / 125 } := by
  simp only [Function.iterate_succ, Function.iterate_zero, Function.comp_apply, id_eq,
    zoomOut4_step, Mandelbrot3D.frame]
  norm_num

/-- `Math.trunc` of a value at most `-n` is at most `-n`. -/
theorem mathTrunc_le_neg (x : ℝ) (n : ℕ) (hn : 1 ≤ n) (hx : x ≤ -(n : ℝ)) :
    mathTrunc x ≤ -(n : ℤ) := by
  have hn' : (1 : ℝ) ≤ (n : ℝ) := by exact_mod_cast hn
  have hneg : ¬ (0 : ℝ) ≤ x := by linarith
  rw [mathTrunc, if_neg hneg, Int.ceil_le]
  push_cast
  exact hx

/-- The sample at the corner cell of the far frame: the loop breaks at `i = 1` with
`zr2 + zi2` at least `256 ^ 8`. -/
theorem fracExit_far_corner :
    (fracExit (-133143986187 / 20) (-2577839371059 / 400) 16).i = 1 ∧
      (256 : ℚ) ^ 8 ≤
        (fracExit (-133143986187 / 20) (-2577839371059 / 400) 16).zr2 +
          (fracExit (-133143986187 / 20) (-2577839371059 / 400) 16).zi2 := by
  have h := fracLoop_break (-133143986187 / 20) (-2577839371059 / 400) 16
    { i := 0, zr := 0, zi := 0, zr2 := 0, zi2 := 0 } 1 (by norm_num)
    (by norm_num [specOrbit, specStep, normSq2])
    (fun j hj => by
      have : j = 0 := by omega
      subst this
      norm_num [specOrbit, normSq2])
  refine ⟨by simpa [fracExit] using h.1, ?_⟩
  rw [fracExit, h.2]
  norm_num [specOrbit, specStep, normSq2]

/-- C7 fails on the code: start from the initial frame `[-2.1, -1.5, 3.1, 3.001]` of
mandelbrot3D_EN.js, press `Go` sixteen times with selector 4 and zoom 'out' (marker
at the centre), and build the landscape with `res = 300`, `limit = levels = 16`.
At grid cell `(0, 0)` the value `v = mandelbrotFrac(posr, posi, 16)` is at most `-2`,
so `zs = trunc(v) ≤ -2` and `zs + 1 ≤ -1`: both palette indices are negative, outside
the range `0 .. levels + 1` of the palette. -/
theorem landscape_palette_index_negative :
    (mandelbrotLandscapeGeom
        (recomputeFrame^[16]
          { frame := Mandelbrot3D.frame, posx := 0, posy := 0, frameSel := 4,
            zoom := Zoom.zoomOut }).frame
        Mandelbrot3D.resolution 16 0 0).zs ≤ -2 ∧
      (mandelbrotLandscapeGeom
        (recomputeFrame^[16]
          { frame := Mandelbrot3D.frame, posx := 0, posy := 0, frameSel := 4,
            zoom := Zoom.zoomOut }).frame
        Mandelbrot3D.resolution 16 0 0).zs1 ≤ -1 := by
  rw [frame_after_sixteen_zoom_outs]
  have hg : gridPoint
      { minr := -133143986187 / 20, mini := -2577839371059 / 400,
        width := 66571993088 / 5, height := 1611149606912 / 125 }
      Mandelbrot3D.resolution 0 0 = (-133143986187 / 20, -2577839371059 / 400) := by
    norm_num [gridPoint]
  have hi := fracExit_far_corner.1
  have hq := fracExit_far_corner.2
  have hesc : (fracExit (-133143986187 / 20) (-2577839371059 / 400) 16).i < 16 := by
    rw [hi]; norm_num
  have hq' : (256 : ℝ) ^ ((2 ^ 3 : ℕ)) ≤
      (((fracExit (-133143986187 / 20) (-2577839371059 / 400) 16).zr2 +
        (fracExit (-133143986187 / 20) (-2577839371059 / 400) 16).zi2 : ℚ) : ℝ) := by
    have : ((256 : ℚ) ^ 8 : ℝ) ≤
        (((fracExit (-133143986187 / 20) (-2577839371059 / 400) 16).zr2 +
          (fracExit (-133143986187 / 20) (-2577839371059 / 400) 16).zi2 : ℚ) : ℝ) := by
      exact_mod_cast hq
    simpa using this
  have hv : mandelbrotFrac (-133143986187 / 20) (-2577839371059 / 400) 16 ≤ -((2 : ℕ) : ℝ) := by
    rw [mandelbrotFrac_escape _ _ _ hesc, hi]
    have := smoothing_le ((1 : ℕ) : ℝ) 3 _
      (lt_of_lt_of_le (by norm_num) hq') hq'
    norm_num at this ⊢
    linarith
  have hzs := mathTrunc_le_neg _ 2 (by norm_num) hv
  simp only [mandelbrotLandscapeGeom, hg]
  constructor
  · exact_mod_cast hzs
  · have : mathTrunc (mandelbrotFrac (-133143986187 / 20) (-2577839371059 / 400) 16) ≤ -2 := by
      exact_mod_cast hzs
    linarith

/-! ## Bounded points -/

theorem specOrbit_origin (k : ℕ) : specOrbit 0 0 (0, 0) k = (0, 0) := by
  induction k with
  | zero => rfl
  | succ n ih =>
    rw [specOrbit, ih]
    simp [specStep]

/-- C11: for every `c` whose Mandelbrot orbit (`z_0 = 0`, `z_{k+1} = z_k² + c`) has
`|z_k|² ≤ 4`, i.e. `|z_k| ≤ 2`, for all `k` (in particular `c = 0`), and every limit
(in particular every limit at least 1), the discrete shader routine returns
`Bounded`, i.e. palette entry `limit`, and `mandelbrotFrac` returns exactly
`limit`. -/
theorem bounded_orbit_reported_bounded (cr ci : ℚ) (limit : ℕ)
    (horb : ∀ k, normSq2 (specOrbit cr ci (0, 0) k) ≤ 4) :
    mandelbrot (cr, ci) limit = EscapeResult.Bounded ∧
      paletteIndex limit (mandelbrot (cr, ci) limit) = limit ∧
      mandelbrotFrac cr ci limit = (limit : ℝ) := by
  have hd : mandelbrot (cr, ci) limit = EscapeResult.Bounded :=
    shaderLoop_bounded cr ci limit 0 (0, 0) (fun k _ => not_lt.mpr (horb k))
  refine ⟨hd, by rw [hd]; rfl, ?_⟩
  rcases fracExit_cases cr ci limit with ⟨k, _, hesc, _, _, _⟩ | ⟨_, hi⟩
  · have := horb k
    linarith
  · exact mandelbrotFrac_bounded cr ci limit (by omega)

/-- Witness for C11 at `c = 0`, `limit = 8`. -/
theorem bounded_orbit_reported_bounded_witness :
    mandelbrot (0, 0) 8 = EscapeResult.Bounded ∧
      paletteIndex 8 (mandelbrot (0, 0) 8) = 8 ∧
      mandelbrotFrac 0 0 8 = ((8 : ℕ) : ℝ) :=
  bounded_orbit_reported_bounded 0 0 8 (fun k => by
    rw [specOrbit_origin k]
    norm_num [normSq2])

/-! ## The Julia scenario at the centre of the initial frame -/

theorem shaderPos_centre : shaderPos JuliaAN.frame (1 / 2, 1 / 2) = (1 / 200, 1 / 200) := by
  norm_num [shaderPos, JuliaAN.frame]

/-- With `c = (0.01, 0.01)` the box `|re| ≤ 0.1`, `|im| ≤ 0.1` is mapped into itself. -/
theorem specStep_small_box (z : ℚ × ℚ)
    (h1 : -(1 / 10) ≤ z.1 ∧ z.1 ≤ 1 / 10) (h2 : -(1 / 10) ≤ z.2 ∧ z.2 ≤ 1 / 10) :
    (-(1 / 10) ≤ (specStep (1 / 100) (1 / 100) z).1 ∧
        (specStep (1 / 100) (1 / 100) z).1 ≤ 1 / 10) ∧
      (-(1 / 10) ≤ (specStep (1 / 100) (1 / 100) z).2 ∧
        (specStep (1 / 100) (1 / 100) z).2 ≤ 1 / 10) := by
  obtain ⟨a1, a2⟩ := h1
  obtain ⟨b1, b2⟩ := h2
  simp only [specStep]
  refine ⟨⟨?_, ?_⟩, ⟨?_, ?_⟩⟩
  · nlinarith [mul_nonneg (sub_nonneg.mpr a2) (sub_nonneg.mpr a1),
      mul_nonneg (sub_nonneg.mpr b2) (sub_nonneg.mpr b1), mul_self_nonneg z.1,
      mul_self_nonneg z.2]
  · nlinarith [mul_nonneg (sub_nonneg.mpr a2) (sub_nonneg.mpr a1),
      mul_nonneg (sub_nonneg.mpr b2) (sub_nonneg.mpr b1), mul_self_nonneg z.1,
      mul_self_nonneg z.2]
  · nlinarith [mul_nonneg (sub_nonneg.mpr a2) (sub_nonneg.mpr b2),
      mul_nonneg (sub_nonneg.mpr a1) (sub_nonneg.mpr b1)]
  · nlinarith [mul_nonneg (sub_nonneg.mpr a2) (sub_nonneg.mpr b1),
      mul_nonneg (sub_nonneg.mpr a1) (sub_nonneg.mpr b2)]

/-- The Julia orbit of `(0.005, 0.005)` under `c = (0.01, 0.01)` stays in the box. -/
theorem julia_centre_orbit_small (k : ℕ) :
    (-(1 / 10) ≤ (specOrbit (1 / 100) (1 / 100) (1 / 200, 1 / 200) k).1 ∧
        (specOrbit (1 / 100) (1 / 100) (1 / 200, 1 / 200) k).1 ≤ 1 / 10) ∧
      (-(1 / 10) ≤ (specOrbit (1 / 100) (1 / 100) (1 / 200, 1 / 200) k).2 ∧
        (specOrbit (1 / 100) (1 / 100) (1 / 200, 1 / 200) k).2 ≤ 1 / 10) := by
  induction k with
  | zero => norm_num [specOrbit]
  | succ n ih =>
    rw [specOrbit]
    exact specStep_small_box _ ih.1 ih.2

/-- No iterate of that orbit passes the escape test. -/
theorem julia_centre_no_escape (k : ℕ) :
    ¬ 4 < normSq2 (specOrbit (1 / 100) (1 / 100) (1 / 200, 1 / 200) k) := by
  obtain ⟨⟨a1, a2⟩, ⟨b1, b2⟩⟩ := julia_centre_orbit_small k
  rw [normSq2, not_lt]
  nlinarith [mul_nonneg (sub_nonneg.mpr a2) (sub_nonneg.mpr a1),
    mul_nonneg (sub_nonneg.mpr b2) (sub_nonneg.mpr b1)]

/-- C12: with the initial frame `[-1.5, -1.5, 3.01, 3.01]` of juliaAN.js the centre
sample `uv = (0.5, 0.5)` is mapped to the plane point `(0.005, 0.005)`; the Julia
routine with `c = (0.01, 0.01)`, `limit = 8` started there passes the escape test
in none of its 8 iterations and returns `Bounded`, i.e. `colors[8]`. -/
theorem julia_centre_scenario :
    shaderPos JuliaAN.frame (1 / 2, 1 / 2) = (1 / 200, 1 / 200) ∧
      (∀ k, k < 8 →
        ¬ 4 < normSq2 (specOrbit (1 / 100) (1 / 100) (shaderPos JuliaAN.frame (1 / 2, 1 / 2)) k)) ∧
      JuliaAN.main JuliaAN.frame (1 / 100) (1 / 100) 8 (1 / 2, 1 / 2) = EscapeResult.Bounded ∧
      paletteIndex 8 (JuliaAN.main JuliaAN.frame (1 / 100) (1 / 100) 8 (1 / 2, 1 / 2)) = 8 := by
  have hm : JuliaAN.main JuliaAN.frame (1 / 100) (1 / 100) 8 (1 / 2, 1 / 2) =
      EscapeResult.Bounded := by
    rw [JuliaAN.main, shaderPos_centre]
    exact shaderLoop_bounded (1 / 100) (1 / 100) 8 0 (1 / 200, 1 / 200)
      (fun k _ => julia_centre_no_escape k)
  refine ⟨shaderPos_centre, ?_, hm, by rw [hm]; rfl⟩
  intro k _
  rw [shaderPos_centre]
  exact julia_centre_no_escape k

/-! ## Gradient palette and palette length -/

theorem gradientLoop_length (color1 color2 : Color) (inc : ℚ) :
    ∀ (n : ℕ) (f : ℚ), (gradientLoop color1 color2 inc n f).length = n := by
  intro n
  induction n with
  | zero => intro f; rfl
  | succ n ih => intro f; simp only [gradientLoop, List.length_cons, ih]

/-- Entry `i` pushed by the gradient loop entered with running factor `f`. -/
theorem gradientLoop_getElem? (color1 color2 : Color) (inc : ℚ) :
    ∀ (n : ℕ) (f : ℚ) (i : ℕ), i < n →
      (gradientLoop color1 color2 inc n f)[i]? =
        some (color1.lerp color2 ((f + (i : ℚ) * inc) * (f + (i : ℚ) * inc))) := by
  intro n
  induction n with
  | zero => intro f i hi; omega
  | succ n ih =>
    intro f i hi
    cases i with
    | zero => simp [gradientLoop]
    | succ i =>
      rw [gradientLoop, List.getElem?_cons_succ, ih (f + inc) i (by omega)]
      push_cast
      congr 2
      ring

/-- Length of the palette of the 2D variants. -/
theorem updateColors_length (setHSL : ℚ → ℚ → ℚ → Color) (levels : ℕ)
    (colorModel : ColorModel) (color1 color2 : Color) :
    (updateColors setHSL levels colorModel color1 color2).length = levels + 1 := by
  cases colorModel
  · simp only [updateColors, List.length_map, List.length_range]
  · simp only [updateColors, List.length_map, List.length_range]
  · simp only [updateColors, gradientLoop_length]

/-- The 3D palette is the 2D palette followed by its entry `levels`. -/
theorem updateColors3D_eq (setHSL : ℚ → ℚ → ℚ → Color) (levels : ℕ)
    (colorModel : ColorModel) (color1 color2 : Color) :
    ∃ c, (updateColors setHSL levels colorModel color1 color2)[levels]? = some c ∧
      Mandelbrot3D.updateColors setHSL levels colorModel color1 color2 =
        updateColors setHSL levels colorModel color1 color2 ++ [c] := by
  have hlen := updateColors_length setHSL levels colorModel color1 color2
  have hlt : levels < (updateColors setHSL levels colorModel color1 color2).length := by
    omega
  refine ⟨(updateColors setHSL levels colorModel color1 color2)[levels], ?_, ?_⟩
  · exact List.getElem?_eq_getElem hlt
  · simp only [Mandelbrot3D.updateColors, List.getElem?_eq_getElem hlt, Option.toList]

/-- Entry `i` of the gradient palette. -/
theorem updateColors_gradient_getElem? (setHSL : ℚ → ℚ → ℚ → Color) (levels : ℕ)
    (color1 color2 : Color) (i : ℕ) (hi : i ≤ levels) :
    (updateColors setHSL levels ColorModel.gradient color1 color2)[i]? =
      some { r := color1.r + (color2.r - color1.r) * ((i : ℚ) / (levels : ℚ)) ^ 2
             g := color1.g + (color2.g - color1.g) * ((i : ℚ) / (levels : ℚ)) ^ 2
             b := color1.b + (color2.b - color1.b) * ((i : ℚ) / (levels : ℚ)) ^ 2 } := by
  simp only [updateColors]
  rw [gradientLoop_getElem? color1 color2 _ (levels + 1) 0 i (by omega)]
  simp only [Color.lerp, zero_add, mul_one_div, pow_two]

/-- C13: for every levels (in particular every levels in [2, 64]), colours color1,
color2 and every `i` in `0..levels`, the gradient palette has
`colors[i] = color1 + (color2 - color1) · (i/levels)²` componentwise, in the 2D
variants and in the 3D variant; hence when `color1 = color2 = A` entry `i` is `A`. -/
theorem gradient_palette_reference (setHSL : ℚ → ℚ → ℚ → Color) (levels : ℕ)
    (color1 color2 : Color) (i : ℕ) (hi : i ≤ levels) :
    (updateColors setHSL levels ColorModel.gradient color1 color2)[i]? =
        some { r := color1.r + (color2.r - color1.r) * ((i : ℚ) / (levels : ℚ)) ^ 2
               g := color1.g + (color2.g - color1.g) * ((i : ℚ) / (levels : ℚ)) ^ 2
               b := color1.b + (color2.b - color1.b) * ((i : ℚ) / (levels : ℚ)) ^ 2 } ∧
      (Mandelbrot3D.updateColors setHSL levels ColorModel.gradient color1 color2)[i]? =
        some { r := color1.r + (color2.r - color1.r) * ((i : ℚ) / (levels : ℚ)) ^ 2
               g := color1.g + (color2.g - color1.g) * ((i : ℚ) / (levels : ℚ)) ^ 2
               b := color1.b + (color2.b - color1.b) * ((i : ℚ) / (levels : ℚ)) ^ 2 } ∧
      (updateColors setHSL levels ColorModel.gradient color1 color1)[i]? = some color1 ∧
      (Mandelbrot3D.updateColors setHSL levels ColorModel.gradient color1 color1)[i]? =
        some color1 := by
  have h2 := updateColors_gradient_getElem? setHSL levels color1 color2 i hi
  have h1 : (updateColors setHSL levels ColorModel.gradient color1 color1)[i]? =
      some color1 := by
    rw [updateColors_gradient_getElem? setHSL levels color1 color1 i hi]
    simp
  have h3 : ∀ c1 c2 : Color,
      (Mandelbrot3D.updateColors setHSL levels ColorModel.gradient c1 c2)[i]? =
        (updateColors setHSL levels ColorModel.gradient c1 c2)[i]? := by
    intro c1 c2
    obtain ⟨c, _, hc⟩ := updateColors3D_eq setHSL levels ColorModel.gradient c1 c2
    rw [hc, List.getElem?_append_left
      (by rw [updateColors_length]; omega)]
  exact ⟨h2, by rw [h3, h2], h1, by rw [h3, h1]⟩

/-- Witness for C13: levels 4, entry 2, from black to `(1, 1/2, 0)`. -/
theorem gradient_palette_reference_witness :
    (updateColors (fun _ _ l => ⟨l, l, l⟩) 4 ColorModel.gradient ⟨0, 0, 0⟩ ⟨1, 1 / 2, 0⟩)[2]? =
        some ⟨1 / 4, 1 / 8, 0⟩ ∧
      (updateColors (fun _ _ l => ⟨l, l, l⟩) 4 ColorModel.gradient ⟨0, 0, 0⟩ ⟨0, 0, 0⟩)[2]? =
        some ⟨0, 0, 0⟩ := by
  have h := gradient_palette_reference (fun _ _ l => ⟨l, l, l⟩) 4 ⟨0, 0, 0⟩ ⟨1, 1 / 2, 0⟩ 2
    (by norm_num)
  have h' := gradient_palette_reference (fun _ _ l => ⟨l, l, l⟩) 4 ⟨0, 0, 0⟩ ⟨0, 0, 0⟩ 2
    (by norm_num)
  refine ⟨?_, h'.2.2.1⟩
  rw [h.1]
  norm_num

/-- C14: for every levels (in particular every levels in [2, 64]) and each of the
three colour models, `updateColors` of the 2D variants returns exactly `levels + 1`
colours, and `updateColors` of the 3D variant returns that same sequence followed by
one more entry equal to entry `levels`: its length is `levels + 2` and its last two
entries are equal. -/
theorem palette_length (setHSL : ℚ → ℚ → ℚ → Color) (levels : ℕ)
    (colorModel : ColorModel) (color1 color2 : Color) :
    (updateColors setHSL levels colorModel color1 color2).length = levels + 1 ∧
      (Mandelbrot3D.updateColors setHSL levels colorModel color1 color2).length = levels + 2 ∧
      (∃ c, (updateColors setHSL levels colorModel color1 color2)[levels]? = some c ∧
        Mandelbrot3D.updateColors setHSL levels colorModel color1 color2 =
          updateColors setHSL levels colorModel color1 color2 ++ [c] ∧
        (Mandelbrot3D.updateColors setHSL levels colorModel color1 color2)[levels]? = some c ∧
        (Mandelbrot3D.updateColors setHSL levels colorModel color1 color2)[levels + 1]? =
          some c) := by
  have hlen := updateColors_length setHSL levels colorModel color1 color2
  obtain ⟨c, hc, h3⟩ := updateColors3D_eq setHSL levels colorModel color1 color2
  refine ⟨hlen, ?_, c, hc, h3, ?_, ?_⟩
  · rw [h3, List.length_append, hlen]
    rfl
  · rw [h3, List.getElem?_append_left (by omega), hc]
  · rw [h3]
    have := List.getElem?_concat_length (updateColors setHSL levels colorModel color1 color2) c
    rw [hlen] at this
    exact this

/-! ## The Mandelbrot shader routine never returns index 0 -/

/-- The Mandelbrot routine returns `Escaped i` exactly at the least tested index
whose iterate has `|z_i|² > 4`. -/
theorem mandelbrot_escaped_iff (c : ℚ × ℚ) (limit i : ℕ) :
    mandelbrot c limit = EscapeResult.Escaped i ↔
      (i < limit ∧ 4 < normSq2 (specOrbit c.1 c.2 (0, 0) i) ∧
        ∀ j, j < i → ¬ 4 < normSq2 (specOrbit c.1 c.2 (0, 0) j)) := by
  constructor
  · intro h
    rcases shaderLoop_cases c.1 c.2 limit 0 (0, 0) with ⟨k, hk, hesc, hmin, hres⟩ | ⟨_, hres⟩
    · have hres' : mandelbrot c limit = EscapeResult.Escaped (0 + k) := hres
      rw [h] at hres'
      have hik : i = k := by simpa using hres'
      subst hik
      exact ⟨hk, hesc, hmin⟩
    · have hres' : mandelbrot c limit = EscapeResult.Bounded := hres
      rw [h] at hres'
      exact absurd hres' (by simp)
  · rintro ⟨hi, hesc, hmin⟩
    have := shaderLoop_escaped c.1 c.2 limit 0 (0, 0) i hi hesc hmin
    simpa [mandelbrot] using this

/-- The start value `z_0 = 0` does not pass the escape test. -/
theorem mandelbrot_index_ne_zero (c : ℚ × ℚ) (limit : ℕ) :
    mandelbrot c limit ≠ EscapeResult.Escaped 0 := by
  intro h
  have := ((mandelbrot_escaped_iff c limit 0).mp h).2.1
  norm_num [specOrbit, normSq2] at this

/-- C15: the Mandelbrot shader routine tests the squares taken before the update of
the same iteration: for every `c` and limit it returns `colors[i]` exactly for the
least `i < limit` with `|z_i|² > 4`, where `z_0 = 0`, `z_{k+1} = z_k² + c`.  That index
is never 0, so for every limit at least 1 the palette entry returned is never entry
0, and with `limit = 1` every point is reported `Bounded`. -/
theorem mandelbrot_test_lags_one_update :
    (∀ (c : ℚ × ℚ) (limit i : ℕ),
        mandelbrot c limit = EscapeResult.Escaped i ↔
          (i < limit ∧ 4 < normSq2 (specOrbit c.1 c.2 (0, 0) i) ∧
            ∀ j, j < i → ¬ 4 < normSq2 (specOrbit c.1 c.2 (0, 0) j))) ∧
    (∀ (c : ℚ × ℚ) (limit : ℕ), mandelbrot c limit ≠ EscapeResult.Escaped 0) ∧
    (∀ (c : ℚ × ℚ) (limit : ℕ), 1 ≤ limit → paletteIndex limit (mandelbrot c limit) ≠ 0) ∧
    (∀ c : ℚ × ℚ, mandelbrot c 1 = EscapeResult.Bounded) := by
  refine ⟨mandelbrot_escaped_iff, mandelbrot_index_ne_zero, ?_, ?_⟩
  · intro c limit hl
    have h0 := mandelbrot_index_ne_zero c limit
    cases hm : mandelbrot c limit with
    | Escaped i =>
      rw [hm] at h0
      simp only [paletteIndex]
      intro hi
      exact h0 (by rw [hi])
    | Bounded =>
      simp only [paletteIndex]
      omega
  · intro c
    cases hm : mandelbrot c 1 with
    | Escaped i =>
      have h := (mandelbrot_escaped_iff c 1 i).mp hm
      have hi : i = 0 := by omega
      subst hi
      exact absurd hm (mandelbrot_index_ne_zero c 1)
    | Bounded => rfl

/-- Witness for C15 at `c = (2, 2)`: index 1 for limit 8, palette entry not 0, and
`Bounded` for limit 1. -/
theorem mandelbrot_test_lags_one_update_witness :
    mandelbrot (2, 2) 8 = EscapeResult.Escaped 1 ∧
      paletteIndex 8 (mandelbrot (2, 2) 8) ≠ 0 ∧
      mandelbrot (2, 2) 1 = EscapeResult.Bounded :=
  ⟨(mandelbrot_test_lags_one_update.1 (2, 2) 8 1).mpr
      ⟨by norm_num, by norm_num [specOrbit, specStep, normSq2], fun j hj => by
        have hj0 : j = 0 := by omega
        subst hj0
        norm_num [specOrbit, normSq2]⟩,
    mandelbrot_test_lags_one_update.2.2.1 (2, 2) 8 (by norm_num),
    mandelbrot_test_lags_one_update.2.2.2 (2, 2)⟩

/-! ## Range of the continuous escape value -/

/-- C16: for every `c` and limit, whenever `mandelbrotFrac` returns through its escape
branch at loop index `i`, then `1 ≤ i ≤ limit − 1`, `modulus > 16` and the returned
value `v` is strictly below `i`, hence below `limit − 1`; every bounded value equals
`limit`; so no sample receives a value in `[limit − 1, limit)`. -/
theorem frac_value_range (cr ci : ℚ) (limit : ℕ) :
    ((fracExit cr ci limit).i < limit →
        1 ≤ (fracExit cr ci limit).i ∧ (fracExit cr ci limit).i ≤ limit - 1 ∧
          16 < fracModulus cr ci limit ∧
          mandelbrotFrac cr ci limit < ((fracExit cr ci limit).i : ℝ) ∧
          mandelbrotFrac cr ci limit < (limit : ℝ) - 1) ∧
      (¬ (fracExit cr ci limit).i < limit → mandelbrotFrac cr ci limit = (limit : ℝ)) ∧
      ¬ ((limit : ℝ) - 1 ≤ mandelbrotFrac cr ci limit ∧
        mandelbrotFrac cr ci limit < (limit : ℝ)) := by
  have hesc : (fracExit cr ci limit).i < limit →
      mandelbrotFrac cr ci limit < (limit : ℝ) - 1 := by
    intro h
    have hv := mandelbrotFrac_lt_index cr ci limit h
    have hi : ((fracExit cr ci limit).i : ℝ) + 1 ≤ (limit : ℝ) := by exact_mod_cast h
    linarith
  refine ⟨?_, mandelbrotFrac_bounded cr ci limit, ?_⟩
  · intro h
    exact ⟨(fracExit_escape cr ci limit h).1, by omega, (fracModulus_gt cr ci limit h).1,
      mandelbrotFrac_lt_index cr ci limit h, hesc h⟩
  · rintro ⟨h1, h2⟩
    by_cases h : (fracExit cr ci limit).i < limit
    · have := hesc h
      linarith
    · rw [mandelbrotFrac_bounded cr ci limit h] at h2
      exact lt_irrefl _ h2

/-- Witness for C16: `c = (2, 2)` escapes at index 3 for limit 8, and `c = 0` is
bounded. -/
theorem frac_value_range_witness :
    (1 ≤ (fracExit 2 2 8).i ∧ (fracExit 2 2 8).i ≤ 8 - 1 ∧ 16 < fracModulus 2 2 8 ∧
        mandelbrotFrac 2 2 8 < ((fracExit 2 2 8).i : ℝ) ∧
        mandelbrotFrac 2 2 8 < ((8 : ℕ) : ℝ) - 1) ∧
      mandelbrotFrac 0 0 8 = ((8 : ℕ) : ℝ) :=
  ⟨(frac_value_range 2 2 8).1 (by rw [fracExit_two_two]; norm_num),
    (frac_value_range 0 0 8).2.1 (by rw [fracExit_zero_eight]; norm_num)⟩

/-! ## Zooming in on the marker -/

/-- The map `x ↦ m + ((x + 1) / 2) · w` is strictly increasing for `w > 0`. -/
theorem framePos_mono (w : ℚ) (hw : 0 < w) (m a b : ℚ) :
    m + ((a + 1) / 2) * w ≤ m + ((b + 1) / 2) * w ↔ a ≤ b := by
  constructor
  · intro h
    by_contra hlt
    push_neg at hlt
    nlinarith [mul_pos hw (sub_pos.mpr hlt)]
  · intro h
    nlinarith [mul_nonneg hw.le (sub_nonneg.mpr h)]

/-- Corners of the marker for a selector above 1. -/
theorem markerAt_corners (f : ℕ) (px py : ℚ) (hf : 1 < f) :
    (markerAt f px py).lo = (px - 1 / (f : ℚ), py - 1 / (f : ℚ)) ∧
      (markerAt f px py).hi = (px + 1 / (f : ℚ), py + 1 / (f : ℚ)) := by
  have hgt : f > 1 := hf
  simp only [markerAt, updateFrame, if_pos hgt, FrameSquare.lo, FrameSquare.hi, makeFrameSquare]
  constructor
  · congr 1 <;> ring
  · congr 1 <;> ring

/-- The frame after zooming in has the images of the marker's corners as corners. -/
theorem zoomInFrame_corners (fr : Frame) (f : ℕ) (px py : ℚ) (hf : f ≠ 1) :
    (zoomInFrame fr f px py).minr = fr.minr + (((px - 1 / (f : ℚ)) + 1) / 2) * fr.width ∧
      (zoomInFrame fr f px py).mini = fr.mini + (((py - 1 / (f : ℚ)) + 1) / 2) * fr.height ∧
      (zoomInFrame fr f px py).minr + (zoomInFrame fr f px py).width =
        fr.minr + (((px + 1 / (f : ℚ)) + 1) / 2) * fr.width ∧
      (zoomInFrame fr f px py).mini + (zoomInFrame fr f px py).height =
        fr.mini + (((py + 1 / (f : ℚ)) + 1) / 2) * fr.height := by
  have hv : recomputeFrame
      { frame := fr, posx := px, posy := py, frameSel := f, zoom := Zoom.zoomIn } = _ :=
    recomputeFrame_eq _ hf
  rw [zoomInFrame, hv]
  simp only [if_true]
  refine ⟨?_, ?_, ?_, ?_⟩ <;> ring

/-- C17: for every frame with positive width and height, selector `f` in {2, 3, 4}
and marker centre `(px, py)`, the frame produced by `recomputeFrame` with zoom 'in'
is exactly the image, under `x ↦ minr + ((x+1)/2)·width`, `y ↦ mini + ((y+1)/2)·height`,
of the marker square `[px − 1/f, px + 1/f] × [py − 1/f, py + 1/f]` (the 2×2
`frameSquare` scaled by `1/f` in `updateFrame`); hence the new frame is contained in
the old frame whenever `|px| ≤ 1 − 1/f` and `|py| ≤ 1 − 1/f`. -/
theorem zoom_in_selects_marker (fr : Frame) (f : ℕ) (px py : ℚ)
    (hw : 0 < fr.width) (hh : 0 < fr.height) (hf : f = 2 ∨ f = 3 ∨ f = 4) :
    (markerAt f px py).lo = (px - 1 / (f : ℚ), py - 1 / (f : ℚ)) ∧
      (markerAt f px py).hi = (px + 1 / (f : ℚ), py + 1 / (f : ℚ)) ∧
      ((zoomInFrame fr f px py).minr, (zoomInFrame fr f px py).mini) =
        framePos fr (markerAt f px py).lo ∧
      ((zoomInFrame fr f px py).minr + (zoomInFrame fr f px py).width,
          (zoomInFrame fr f px py).mini + (zoomInFrame fr f px py).height) =
        framePos fr (markerAt f px py).hi ∧
      (∀ x y : ℚ,
        ((zoomInFrame fr f px py).minr ≤ x ∧
            x ≤ (zoomInFrame fr f px py).minr + (zoomInFrame fr f px py).width ∧
            (zoomInFrame fr f px py).mini ≤ y ∧
            y ≤ (zoomInFrame fr f px py).mini + (zoomInFrame fr f px py).height) ↔
          ∃ a b : ℚ, (markerAt f px py).lo.1 ≤ a ∧ a ≤ (markerAt f px py).hi.1 ∧
            (markerAt f px py).lo.2 ≤ b ∧ b ≤ (markerAt f px py).hi.2 ∧
            framePos fr (a, b) = (x, y)) ∧
      (|px| ≤ 1 - 1 / (f : ℚ) → |py| ≤ 1 - 1 / (f : ℚ) →
        fr.minr ≤ (zoomInFrame fr f px py).minr ∧
          (zoomInFrame fr f px py).minr + (zoomInFrame fr f px py).width ≤
            fr.minr + fr.width ∧
          fr.mini ≤ (zoomInFrame fr f px py).mini ∧
          (zoomInFrame fr f px py).mini + (zoomInFrame fr f px py).height ≤
            fr.mini + fr.height) := by
  have h1 : f ≠ 1 := by omega
  have hgt : 1 < f := by omega
  obtain ⟨hlo, hhi⟩ := markerAt_corners f px py hgt
  obtain ⟨c1, c2, c3, c4⟩ := zoomInFrame_corners fr f px py h1
  have hw0 : fr.width ≠ 0 := ne_of_gt hw
  have hh0 : fr.height ≠ 0 := ne_of_gt hh
  refine ⟨hlo, hhi, ?_, ?_, ?_, ?_⟩
  · rw [hlo, c1, c2, framePos]
  · rw [hhi, c3, c4, framePos]
  · intro x y
    rw [hlo, hhi, c3, c4, c1, c2]
    simp only [framePos, Prod.mk.injEq]
    constructor
    · rintro ⟨x1, x2, y1, y2⟩
      have ex : fr.minr + ((2 * (x - fr.minr) / fr.width - 1 + 1) / 2) * fr.width = x := by
        field_simp
        ring
      have ey : fr.mini + ((2 * (y - fr.mini) / fr.height - 1 + 1) / 2) * fr.height = y := by
        field_simp
        ring
      refine ⟨2 * (x - fr.minr) / fr.width - 1, 2 * (y - fr.mini) / fr.height - 1,
        ?_, ?_, ?_, ?_, ex, ey⟩
      · rw [← framePos_mono fr.width hw fr.minr, ex]; exact x1
      · rw [← framePos_mono fr.width hw fr.minr, ex]; exact x2
      · rw [← framePos_mono fr.height hh fr.mini, ey]; exact y1
      · rw [← framePos_mono fr.height hh fr.mini, ey]; exact y2
    · rintro ⟨a, b, a1, a2, b1, b2, ex, ey⟩
      rw [← ex, ← ey]
      exact ⟨(framePos_mono fr.width hw fr.minr _ _).mpr a1,
        (framePos_mono fr.width hw fr.minr _ _).mpr a2,
        (framePos_mono fr.height hh fr.mini _ _).mpr b1,
        (framePos_mono fr.height hh fr.mini _ _).mpr b2⟩
  · intro hx hy
    rw [abs_le] at hx hy
    rw [c3, c4, c1, c2]
    have e1 : fr.minr = fr.minr + ((-1 + 1) / 2) * fr.width := by ring
    have e2 : fr.minr + fr.width = fr.minr + (((1 : ℚ) + 1) / 2) * fr.width := by ring
    have e3 : fr.mini = fr.mini + ((-1 + 1) / 2) * fr.height := by ring
    have e4 : fr.mini + fr.height = fr.mini + (((1 : ℚ) + 1) / 2) * fr.height := by ring
    refine ⟨?_, ?_, ?_, ?_⟩
    · conv_lhs => rw [e1]
      exact (framePos_mono fr.width hw fr.minr _ _).mpr (by linarith [hx.1])
    · rw [e2]
      exact (framePos_mono fr.width hw fr.minr _ _).mpr (by linarith [hx.2])
    · conv_lhs => rw [e3]
      exact (framePos_mono fr.height hh fr.mini _ _).mpr (by linarith [hy.1])
    · rw [e4]
      exact (framePos_mono fr.height hh fr.mini _ _).mpr (by linarith [hy.2])

/-- Witness for C17: the initial Julia frame, selector 2, marker at `(1/2, 0)`. -/
theorem zoom_in_selects_marker_witness :
    ((zoomInFrame JuliaAN.frame 2 (1 / 2) 0).minr, (zoomInFrame JuliaAN.frame 2 (1 / 2) 0).mini) =
        framePos JuliaAN.frame (markerAt 2 (1 / 2) 0).lo ∧
      (JuliaAN.frame.minr ≤ (zoomInFrame JuliaAN.frame 2 (1 / 2) 0).minr ∧
        (zoomInFrame JuliaAN.frame 2 (1 / 2) 0).minr +
            (zoomInFrame JuliaAN.frame 2 (1 / 2) 0).width ≤
          JuliaAN.frame.minr + JuliaAN.frame.width ∧
        JuliaAN.frame.mini ≤ (zoomInFrame JuliaAN.frame 2 (1 / 2) 0).mini ∧
        (zoomInFrame JuliaAN.frame 2 (1 / 2) 0).mini +
            (zoomInFrame JuliaAN.frame 2 (1 / 2) 0).height ≤
          JuliaAN.frame.mini + JuliaAN.frame.height) :=
  ⟨(zoom_in_selects_marker JuliaAN.frame 2 (1 / 2) 0 (by norm_num [JuliaAN.frame])
      (by norm_num [JuliaAN.frame]) (Or.inl rfl)).2.2.1,
    (zoom_in_selects_marker JuliaAN.frame 2 (1 / 2) 0 (by norm_num [JuliaAN.frame])
      (by norm_num [JuliaAN.frame]) (Or.inl rfl)).2.2.2.2.2
      (by norm_num [abs_le]) (by norm_num [abs_le])⟩

end Grafika
